import Mathlib

/-!
Verification of the iCal feed reconciliation engine of ApartBook
(`app/models.py`: `ICalFeed.sync`, `ICalFeed.record_success`,
`ICalFeed.record_failure`, `ICalFeed._parse_ical`,
`ICalFeed._parse_ical_date`, and the `ICalEvent` / `Availability` /
`Booking` rows they read and write).

Embedding conventions:
* calendar dates (`datetime.date`) are represented by their day ordinal
  (a `Nat`), which is order-isomorphic to Python dates with
  `d + timedelta(days=1)` becoming `d + 1`;
* timestamps (`timezone.now()`) are represented in minutes (a `Nat`), so
  `timedelta(hours=48)` is `2880` and `timedelta(minutes=m)` is `m`;
* the parser works on year/month/day triples (`YMD`) exactly as
  `_parse_ical_date` builds them, and `YMD.toOrdinal` is Python's
  `date.toordinal`;
* database rows are lists of structures; `update_or_create` is modelled
  by an explicit lookup/update/insert, and the `IntegrityError` raised
  when inserting an `Availability` row for an already-occupied date
  (the table is unique on (apartment, date) while sync looks rows up by
  (apartment, date, ical_feed)) is modelled by `Option`/`Except`
  results carrying the partially mutated state, which the `except`
  branch of `sync` then feeds to `record_failure`;
* the SHA-256 content hash is an opaque parameter `hash : String → String`;
  the network response is an explicit `FetchResult` input.
-/

set_option maxRecDepth 2000

namespace ApartBook

/-! ## Python string and int primitives used by `_parse_ical_date` -/

/-- Python's whitespace set for `str.strip()` / `int()` (ASCII part). -/
def pyWhitespace (c : Char) : Bool :=
  c = ' ' || c = '\t' || c = '\n' || c = '\r' || c = '\x0b' || c = '\x0c'

/-- Python `str.strip()`. -/
def pyStrip (s : String) : String :=
  String.mk (((s.data.dropWhile pyWhitespace).reverse.dropWhile pyWhitespace).reverse)

/-- Digit run as accepted by Python `int()` after the first digit:
underscores are allowed only between digits. -/
def pyDigitsRest : List Char → Bool
  | [] => true
  | '_' :: c :: rest => c.isDigit && pyDigitsRest rest
  | '_' :: [] => false
  | c :: rest => c.isDigit && pyDigitsRest rest

/-- A nonempty digit run (underscores only between digits). -/
def pyDigitsOk : List Char → Bool
  | [] => false
  | c :: rest => c.isDigit && pyDigitsRest rest

/-- Numeric value of a digit run, skipping underscores. -/
def pyDigitsVal (cs : List Char) : Nat :=
  cs.foldl (fun a c => if c = '_' then a else a * 10 + (c.toNat - 48)) 0

/-- Python `int(s)` on a character list: strip whitespace, optional
sign, digits with underscores between digits; `none` models a raised
`ValueError`. -/
def pyInt (s : List Char) : Option Int :=
  match (s.dropWhile pyWhitespace).reverse.dropWhile pyWhitespace |>.reverse with
  | '+' :: rest => if pyDigitsOk rest then some (pyDigitsVal rest : Int) else none
  | '-' :: rest => if pyDigitsOk rest then some (-(pyDigitsVal rest : Int)) else none
  | rest => if pyDigitsOk rest then some (pyDigitsVal rest : Int) else none

/-- Python `str.replace` (non-overlapping, left to right) on character
lists; the counter skips the remaining characters of a match.  Defined
structurally so that concrete inputs evaluate inside the kernel. -/
def pyReplaceGo (old new : List Char) : List Char → Nat → List Char
  | [], _ => []
  | _ :: rest, Nat.succ k => pyReplaceGo old new rest k
  | c :: rest, 0 =>
    if old.isPrefixOf (c :: rest) then
      new ++ pyReplaceGo old new rest (old.length - 1)
    else c :: pyReplaceGo old new rest 0

/-- Python `s.replace(old, new)` for nonempty `old`. -/
def pyReplace (s old new : String) : String :=
  String.mk (pyReplaceGo old.data new.data s.data 0)

/-- Python `str.split(sep)` on character lists (nonempty `sep`):
accumulate the current chunk (reversed) and skip matched separators. -/
def pySplitGo (sep : List Char) : List Char → List Char → Nat → List (List Char)
  | [], cur, _ => [cur.reverse]
  | _ :: rest, cur, Nat.succ k => pySplitGo sep rest cur k
  | c :: rest, cur, 0 =>
    if sep.isPrefixOf (c :: rest) then
      cur.reverse :: pySplitGo sep rest [] (sep.length - 1)
    else pySplitGo sep rest (c :: cur) 0

/-- Python `s.split(sep)`. -/
def pySplit (s sep : String) : List String :=
  (pySplitGo sep.data s.data [] 0).map String.mk

/-! ## Dates -/

/-- A validated Python `datetime.date`. -/
structure YMD where
  year : Nat
  month : Nat
  day : Nat
deriving Repr, DecidableEq

/-- Python's Gregorian leap-year test. -/
def isLeapYear (y : Int) : Bool := y % 4 = 0 && (y % 100 ≠ 0 || y % 400 = 0)

/-- Days in a month, as `datetime.date` validates them. -/
def pyDaysInMonth (y m : Int) : Int :=
  if m = 2 then (if isLeapYear y then 29 else 28)
  else if m = 4 || m = 6 || m = 9 || m = 11 then 30
  else 31

/-- Python `date(y, m, d)`: `none` models a raised `ValueError`. -/
def pyDate (y m d : Int) : Option YMD :=
  if 1 ≤ y && y ≤ 9999 && 1 ≤ m && m ≤ 12 && 1 ≤ d && d ≤ pyDaysInMonth y m then
    some ⟨y.toNat, m.toNat, d.toNat⟩
  else none

/-- Cumulative days before month `m` in a non-leap year. -/
def daysBeforeMonth (m : Nat) : Nat :=
  match m with
  | 1 => 0 | 2 => 31 | 3 => 59 | 4 => 90 | 5 => 120 | 6 => 151
  | 7 => 181 | 8 => 212 | 9 => 243 | 10 => 273 | 11 => 304 | _ => 334

/-- Python `date.toordinal()` (day 1 = 0001-01-01). -/
def YMD.toOrdinal (x : YMD) : Nat :=
  let y := x.year - 1
  365 * y + y / 4 - y / 100 + y / 400 + daysBeforeMonth x.month +
    (if 2 < x.month && isLeapYear (x.year : Int) then 1 else 0) + x.day

/-! ## `_parse_ical_date` and `_parse_ical` -/

/-- `line.split(':', 1)[-1]` for a line known to contain a colon:
everything after the first colon. -/
def afterFirstColon (line : String) : String :=
  String.mk ((line.data.dropWhile (fun c => !(c == ':'))).drop 1)

/-- `ICalFeed._parse_ical_date`: strip, cut at the first `T` (else take
the first 8 characters), read slices `[:4]`, `[4:6]`, `[6:8]` as ints,
build a date; any failure (bare `except`) yields `none`. -/
def parse_ical_date (date_str : String) : Option YMD :=
  let s := (pyStrip date_str).data
  let date_part := if s.contains 'T' then s.takeWhile (fun c => !(c == 'T')) else s.take 8
  match pyInt (date_part.take 4), pyInt ((date_part.drop 4).take 2),
        pyInt ((date_part.drop 6).take 2) with
  | some y, some m, some d => pyDate y m d
  | _, _, _ => none

/-- One raw VEVENT dict as `_parse_ical` builds it.  The outer `Option`
on `start`/`stop` records whether the dict key was ever assigned (a
`DTSTART`/`DTEND` line was seen); the inner `Option` is the date-parse
result.  `stop` models the dict key `'end'`. -/
structure RawEvent where
  start : Option (Option YMD) := none
  stop : Option (Option YMD) := none
  uid : Option String := none
  summary : Option String := none
  status : Option String := none
deriving Repr, DecidableEq

/-- Python dict truthiness for the `if current_event:` append guard. -/
def RawEvent.hasAnyField (e : RawEvent) : Bool :=
  e.start.isSome || e.stop.isSome || e.uid.isSome || e.summary.isSome || e.status.isSome

/-- Unfolding and line splitting of `_parse_ical`: remove CRLF
continuations and split on CRLF; if that yields at most one line, redo
with bare LF on the original text. -/
def unfoldIcalLines (ical_content : String) : List String :=
  let lines := pySplit (pyReplace (pyReplace ical_content "\r\n " "") "\r\n\t" "") "\r\n"
  if lines.length ≤ 1 then
    pySplit (pyReplace (pyReplace ical_content "\n " "") "\n\t" "") "\n"
  else lines

/-- The line loop of `_parse_ical` over (stripped) lines, carrying the
current VEVENT dict and the accumulated event list. -/
def parseLinesGo : List String → Option RawEvent → List RawEvent → List RawEvent
  | [], _, events => events
  | l :: rest, current_event, events =>
    let line := pyStrip l
    if line = "BEGIN:VEVENT" then parseLinesGo rest (some {}) events
    else if line = "END:VEVENT" then
      match current_event with
      | some ev =>
          parseLinesGo rest none (if ev.hasAnyField then events ++ [ev] else events)
      | none => parseLinesGo rest none events
    else
      match current_event with
      | none => parseLinesGo rest none events
      | some ev =>
        if ("DTSTART").data.isPrefixOf line.data then
          let date_str := if line.data.contains ':' then afterFirstColon line else ""
          parseLinesGo rest (some { ev with start := some (parse_ical_date date_str) }) events
        else if ("DTEND").data.isPrefixOf line.data then
          let date_str := if line.data.contains ':' then afterFirstColon line else ""
          parseLinesGo rest (some { ev with stop := some (parse_ical_date date_str) }) events
        else if ("UID:").data.isPrefixOf line.data then
          parseLinesGo rest (some { ev with uid := some (String.mk (line.data.drop 4)) }) events
        else if ("SUMMARY:").data.isPrefixOf line.data then
          parseLinesGo rest (some { ev with summary := some (String.mk (line.data.drop 8)) }) events
        else if ("STATUS:").data.isPrefixOf line.data then
          parseLinesGo rest (some { ev with status := some (String.mk (line.data.drop 7)) }) events
        else parseLinesGo rest (some ev) events

/-- `ICalFeed._parse_ical`. -/
def parse_ical (ical_content : String) : List RawEvent :=
  parseLinesGo (unfoldIcalLines ical_content) none []

/-! ## Data model of the sync engine -/

/-- The fields of `ICalFeed` that the sync code reads or writes. -/
structure Feed where
  id : Nat
  name : String
  sync_interval_minutes : Nat
  last_synced : Option Nat := none
  last_sync_status : String := ""
  sync_error : String := ""
  last_etag : String := ""
  last_modified_header : String := ""
  last_content_hash : String := ""
  consecutive_failures : Nat := 0
  is_circuit_open : Bool := false
  circuit_opened_at : Option Nat := none
  next_sync_at : Option Nat := none
  total_syncs : Nat := 0
  successful_syncs : Nat := 0
  last_sync_duration_ms : Option Nat := none
  last_fetch_bytes : Option Nat := none
  last_events_parsed : Nat := 0
  last_events_created : Nat := 0
  last_events_updated : Nat := 0
  last_events_removed : Nat := 0
deriving Repr, DecidableEq

/-- One `ICalEvent` ledger row of the syncing feed (sync never touches
`recurrence_id`, `sequence`, `dtstamp` or `raw_vevent`, so they are
omitted; `first_seen_at`/`last_seen_at` are the `auto_now_add`/`auto_now`
timestamps). -/
structure ICalEvent where
  uid : String
  dtstart : Nat
  dtend : Nat
  summary : String
  status : String
  first_seen_at : Nat
  last_seen_at : Nat
  missing_since : Option Nat
  is_deleted : Bool
deriving Repr, DecidableEq

/-- One `Availability` row of the apartment (the `min_stay_nights` /
`max_stay_nights` fields are never read or written by sync and are
omitted).  `ical_event` is the foreign key, identified by the unique
(feed id, uid) of the referenced ledger row. -/
structure Availability where
  date : Nat
  is_available : Bool
  note : String
  source : String
  external_uid : String
  ical_feed : Option Nat
  ical_event : Option (Nat × String)
deriving Repr, DecidableEq

/-- The read-only fields of a `Booking` used by sync. -/
structure Booking where
  check_in : Nat
  check_out : Nat
  status : String
deriving Repr, DecidableEq

/-! ## `record_success` and `record_failure` -/

/-- `ICalFeed.record_success`. -/
def Feed.record_success (f : Feed) (now duration_ms events_parsed created updated removed : Nat) :
    Feed :=
  { f with
    last_synced := some now
    last_sync_status := "SUCCESS"
    sync_error := ""
    consecutive_failures := 0
    is_circuit_open := false
    circuit_opened_at := none
    total_syncs := f.total_syncs + 1
    successful_syncs := f.successful_syncs + 1
    last_sync_duration_ms := some duration_ms
    last_events_parsed := events_parsed
    last_events_created := created
    last_events_updated := updated
    last_events_removed := removed
    next_sync_at := some (now + f.sync_interval_minutes) }

/-- `ICalFeed.record_failure`: bump the failure count, open the circuit
at 5 consecutive failures, and schedule the next sync with exponential
backoff capped at 1440 minutes (24 hours). -/
def Feed.record_failure (f : Feed) (now : Nat) (error_message : String) : Feed :=
  let cf := f.consecutive_failures + 1
  let f1 := { f with
    consecutive_failures := cf
    last_synced := some now
    last_sync_status := "ERROR"
    sync_error := String.mk (error_message.data.take 1000)
    total_syncs := f.total_syncs + 1 }
  let f2 := if 5 ≤ cf then { f1 with is_circuit_open := true, circuit_opened_at := some now }
            else f1
  let backoff_minutes := min (f.sync_interval_minutes * 2 ^ cf) 1440
  { f2 with next_sync_at := some (now + backoff_minutes) }

/-! ## The reconciliation step of `sync` -/

/-- One parsed event as the `sync` loop consumes it: `event.get(k)`
flattens a missing dict key and a stored `None` to the same `none`, and
parsed dates are carried as day ordinals. -/
structure ParsedEvent where
  start : Option Nat := none
  stop : Option Nat := none
  uid : Option String := none
  summary : Option String := none
  status : Option String := none
deriving Repr, DecidableEq

/-- Interface between the parser and the sync loop: flatten the dict
accesses and move to day ordinals. -/
def RawEvent.toParsed (e : RawEvent) : ParsedEvent :=
  { start := (e.start.getD none).map YMD.toOrdinal
    stop := (e.stop.getD none).map YMD.toOrdinal
    uid := e.uid
    summary := e.summary
    status := e.status }

/-- `Availability.objects.filter(apartment=…, date=current, source='MANUAL').exists()`. -/
def hasManual (avail : List Availability) (d : Nat) : Bool :=
  avail.any fun r => r.date = d && r.source = "MANUAL"

/-- `self.apartment.bookings.filter(status__in=['CONFIRMED','PENDING'],
check_in__lte=current, check_out__gt=current).exists()`. -/
def hasBooking (bookings : List Booking) (d : Nat) : Bool :=
  bookings.any fun b =>
    (b.status = "CONFIRMED" || b.status = "PENDING") && b.check_in ≤ d && d < b.check_out

/-- `ICalEvent.objects.update_or_create(feed=self, uid=uid, defaults=…)`:
update the row with this uid if present (the `defaults`, plus the
`auto_now` field `last_seen_at`), else insert a fresh row.  Returns the
new ledger and `was_created`. -/
def eventUpsert (now : Nat) (uid : String) (dtstart dtend : Nat) (summary status : String)
    (evs : List ICalEvent) : List ICalEvent × Bool :=
  if evs.any (fun e => e.uid = uid) then
    (evs.map fun e =>
      if e.uid = uid then
        { e with dtstart := dtstart, dtend := dtend, summary := summary, status := status,
                 missing_since := none, is_deleted := false, last_seen_at := now }
      else e, false)
  else
    (evs ++ [{ uid := uid, dtstart := dtstart, dtend := dtend, summary := summary,
               status := status, first_seen_at := now, last_seen_at := now,
               missing_since := none, is_deleted := false }], true)

/-- The values one `Availability.objects.update_or_create` writes
(besides the fixed `is_available = False` and `source = 'ICAL'`). -/
structure AvailDefaults where
  note : String
  external_uid : String
  ical_event : Nat × String
deriving Repr, DecidableEq

/-- Apply the `defaults` of the availability upsert to an existing row
(the row keeps its `date` and its `ical_feed`, which the lookup matched). -/
def availWrite (v : AvailDefaults) (r : Availability) : Availability :=
  { r with is_available := false, note := v.note, source := "ICAL",
           external_uid := v.external_uid, ical_event := some v.ical_event }

/-- The fresh row the availability upsert inserts when no row matches the
lookup `(apartment, date, ical_feed=self)`. -/
def availNew (fid : Nat) (d : Nat) (v : AvailDefaults) : Availability :=
  { date := d, is_available := false, note := v.note, source := "ICAL",
    external_uid := v.external_uid, ical_feed := some fid, ical_event := some v.ical_event }

/-- `Availability.objects.update_or_create(apartment=…, date=d,
ical_feed=self, defaults=…)`: update the row matching the lookup if it
exists; otherwise insert — but inserting when another row already
occupies the date violates the unique (apartment, date) constraint, an
`IntegrityError` modelled by `none`. -/
def availUpsert (fid : Nat) (d : Nat) (v : AvailDefaults) (avail : List Availability) :
    Option (List Availability) :=
  if avail.any (fun r => r.date = d && r.ical_feed = some fid) then
    some (avail.map fun r =>
      if r.date = d && r.ical_feed = some fid then availWrite v r else r)
  else if avail.any (fun r => r.date = d) then none
  else some (avail ++ [availNew fid d v])

/-- The dates visited by `while current < end_date: … current +=
timedelta(days=1)`: the half-open ordinal interval `[current, dtend)`. -/
def blockDates (current dtend : Nat) : List Nat := List.range' current (dtend - current)

/-- The body of the night-block loop, folded over the visited dates: a
date with a manual block or a PENDING/CONFIRMED booking is skipped;
otherwise the imported block is upserted.  An `IntegrityError` aborts
the loop; `Except.error` carries the rows written before the abort,
which persist (each write is committed by its own `save()`). -/
def blockFold (bookings : List Booking) (fid : Nat) (v : AvailDefaults) :
    List Nat → List Availability → Except (List Availability) (List Availability)
  | [], avail => .ok avail
  | d :: ds, avail =>
    if !hasManual avail d && !hasBooking bookings d then
      match availUpsert fid d v avail with
      | some avail2 => blockFold bookings fid v ds avail2
      | none => .error avail
    else blockFold bookings fid v ds avail

/-- The `while current < end_date` night-block loop for one upserted
event. -/
def blockLoop (bookings : List Booking) (fid : Nat) (v : AvailDefaults)
    (current dtend : Nat) (avail : List Availability) :
    Except (List Availability) (List Availability) :=
  blockFold bookings fid v (blockDates current dtend) avail

/-- The read-only context of one reconciliation pass. -/
structure RecCtx where
  fid : Nat
  fname : String
  today : Nat
  now : Nat
  bookings : List Booking

/-- The mutable state threaded through the `for event in events` loop. -/
structure RecState where
  seen : List String
  created : Nat
  updated : Nat
  events : List ICalEvent
  avail : List Availability
deriving Repr, DecidableEq

/-- `seen_uids.add(uid)` on a set modelled as a duplicate-free list. -/
def seenAdd (seen : List String) (u : String) : List String :=
  if seen.contains u then seen else seen ++ [u]

/-- The body of `for event in events` in `sync`: skip events missing a
date or entirely in the past; otherwise record the uid as seen, upsert
the ledger row, and (unless CANCELLED) materialize night blocks. -/
def processEvent (ctx : RecCtx) (ev : ParsedEvent) (st : RecState) :
    Except (List ICalEvent × List Availability) RecState :=
  let uid := ev.uid.getD ""
  let summary := ev.summary.getD "External Booking"
  let status := ev.status.getD "CONFIRMED"
  match ev.start, ev.stop with
  | some start_date, some end_date =>
    if end_date < ctx.today then .ok st
    else
      let seen := seenAdd st.seen uid
      let up := eventUpsert ctx.now uid start_date end_date
        (if summary ≠ "" then String.mk (summary.data.take 500) else "") status st.events
      let created := if up.2 then st.created + 1 else st.created
      let updated := if up.2 then st.updated else st.updated + 1
      if status ≠ "CANCELLED" then
        match blockLoop ctx.bookings ctx.fid
            ⟨ctx.fname ++ ": " ++ summary, uid, (ctx.fid, uid)⟩
            start_date end_date st.avail with
        | .ok avail2 => .ok ⟨seen, created, updated, up.1, avail2⟩
        | .error avail2 => .error (up.1, avail2)
      else .ok ⟨seen, created, updated, up.1, st.avail⟩
  | _, _ => .ok st

/-- The full `for event in events` loop. -/
def eventLoop (ctx : RecCtx) :
    List ParsedEvent → RecState → Except (List ICalEvent × List Availability) RecState
  | [], st => .ok st
  | ev :: rest, st =>
    match processEvent ctx ev st with
    | .ok st2 => eventLoop ctx rest st2
    | .error e => .error e

/-- The per-row effect of the `for event in missing_events` loop: first
detected absence stamps `missing_since = now`; absence for more than 48
hours (2880 minutes) tombstones the row. -/
def missTouch (seen : List String) (now : Nat) (e : ICalEvent) : ICalEvent :=
  if !e.is_deleted && !seen.contains e.uid then
    match e.missing_since with
    | none => { e with missing_since := some now }
    | some t => if 2880 < now - t then { e with is_deleted := true } else e
  else e

/-- Whether a ledger row is tombstoned (and its blocks deleted) by this
pass: a missing candidate whose `missing_since` is more than 48 hours old. -/
def isExpired (seen : List String) (now : Nat) (e : ICalEvent) : Bool :=
  !e.is_deleted && !seen.contains e.uid &&
    (match e.missing_since with
     | some t => 2880 < now - t
     | none => false)

/-- The missing-event reconciliation of `sync`: stamp or tombstone every
non-deleted ledger row whose uid was not seen, delete the availability
rows of tombstoned events, and count the removals.  (Each loop iteration
touches only its own row and the rows referencing it, so under the
(feed, uid) uniqueness of the ledger the loop is this map/filter/count.) -/
def missingPhase (fid : Nat) (seen : List String) (now : Nat)
    (evs : List ICalEvent) (avail : List Availability) :
    List ICalEvent × List Availability × Nat :=
  (evs.map (missTouch seen now),
   avail.filter (fun r =>
     !(evs.any fun e => isExpired seen now e && r.ical_event = some (fid, e.uid))),
   (evs.filter (isExpired seen now)).length)

/-- `ICalEvent.objects.filter(feed=self, uid__in=seen_uids,
missing_since__isnull=False).update(missing_since=None)`. -/
def resetPhase (seen : List String) (evs : List ICalEvent) : List ICalEvent :=
  evs.map fun e =>
    if seen.contains e.uid && e.missing_since.isSome then { e with missing_since := none }
    else e

/-- The reconciliation step of `sync` (everything after the content-hash
check and the parse): the event loop, the missing-event loop, and the
reappeared-event reset.  `Except.error` carries the partially mutated
rows left behind by an `IntegrityError`; `Except.ok` returns the new
ledger, the new availability rows, and the (created, updated, removed)
counters. -/
def reconcile (ctx : RecCtx) (parsed : List ParsedEvent)
    (evs : List ICalEvent) (avail : List Availability) :
    Except (List ICalEvent × List Availability)
      (List ICalEvent × List Availability × Nat × Nat × Nat) :=
  match eventLoop ctx parsed ⟨[], 0, 0, evs, avail⟩ with
  | .error e => .error e
  | .ok st =>
    let m := missingPhase ctx.fid st.seen ctx.now st.events st.avail
    .ok (resetPhase st.seen m.1, m.2.1, st.created, st.updated, m.2.2)

/-! ## The top-level `sync` -/

/-- The outcome of `requests.get` plus `raise_for_status`:
a 304, a 2xx with body and caching headers, or a raised exception
(network error, timeout, or non-2xx status). -/
inductive FetchResult where
  | notModified
  | ok (etag last_modified : String) (body : String)
  | fetchError (msg : String)
deriving Repr, DecidableEq

/-- The database state after a sync pass, plus the returned success flag. -/
structure SyncResult where
  feed : Feed
  events : List ICalEvent
  avail : List Availability
  success : Bool
deriving Repr, DecidableEq

/-- `ICalFeed.sync`.  `hash` is SHA-256, opaque here; `now` is
`timezone.now()` in minutes; `today` is `datetime.now().date()` as an
ordinal; `duration_ms` is the measured wall-clock duration written by
`record_success`.  A 304 and a content-hash match update only the feed's
sync metadata; otherwise the body is parsed and reconciled, and the
outcome recorded via `record_success` / `record_failure` (the latter
also on the `IntegrityError` path, keeping the partially written rows
and the already-assigned caching headers, which its `save()` persists). -/
def sync (hash : String → String) (now today duration_ms : Nat)
    (bookings : List Booking) (f : Feed) (evs : List ICalEvent)
    (avail : List Availability) (fetch : FetchResult) : SyncResult :=
  match fetch with
  | .notModified =>
    ⟨{ f with
        last_synced := some now
        last_sync_status := "NOT_MODIFIED"
        total_syncs := f.total_syncs + 1
        successful_syncs := f.successful_syncs + 1
        consecutive_failures := 0
        next_sync_at := some (now + f.sync_interval_minutes) },
      evs, avail, true⟩
  | .fetchError msg => ⟨f.record_failure now msg, evs, avail, false⟩
  | .ok etag last_modified body =>
    let f1 := { f with
      last_etag := etag
      last_modified_header := last_modified
      last_fetch_bytes := some body.length }
    if hash body = f.last_content_hash then
      ⟨{ f1 with
          last_synced := some now
          last_sync_status := "HASH_MATCH"
          total_syncs := f1.total_syncs + 1
          successful_syncs := f1.successful_syncs + 1
          consecutive_failures := 0
          next_sync_at := some (now + f1.sync_interval_minutes) },
        evs, avail, true⟩
    else
      let f2 := { f1 with last_content_hash := hash body }
      let parsed := (parse_ical body).map RawEvent.toParsed
      match reconcile ⟨f.id, f.name, today, now, bookings⟩ parsed evs avail with
      | .ok out =>
        ⟨f2.record_success now duration_ms parsed.length out.2.2.1 out.2.2.2.1 out.2.2.2.2,
          out.1, out.2.1, true⟩
      | .error e => ⟨f2.record_failure now "IntegrityError", e.1, e.2, false⟩

/-! ## C7: backoff schedule after a failure -/

/-- C7: after every recorded failure the next sync is scheduled at `now`
plus `min(sync_interval_minutes * 2^consecutive_failures, 1440)` with
the post-failure failure count; the delay never exceeds 1440 minutes
(24 hours); and post-failure counts 1, 2, 3 give delays of
interval*2, interval*4, interval*8 whenever those are under the cap. -/
theorem C7_failure_backoff (f : Feed) (now : Nat) (msg : String) :
    (f.record_failure now msg).next_sync_at =
      some (now + min (f.sync_interval_minutes * 2 ^ (f.consecutive_failures + 1)) 1440) ∧
    (∀ d, (f.record_failure now msg).next_sync_at = some (now + d) → d ≤ 1440) ∧
    (f.consecutive_failures = 0 → f.sync_interval_minutes * 2 ≤ 1440 →
      (f.record_failure now msg).next_sync_at = some (now + f.sync_interval_minutes * 2)) ∧
    (f.consecutive_failures = 1 → f.sync_interval_minutes * 4 ≤ 1440 →
      (f.record_failure now msg).next_sync_at = some (now + f.sync_interval_minutes * 4)) ∧
    (f.consecutive_failures = 2 → f.sync_interval_minutes * 8 ≤ 1440 →
      (f.record_failure now msg).next_sync_at = some (now + f.sync_interval_minutes * 8)) := by
  have hnext : (f.record_failure now msg).next_sync_at =
      some (now + min (f.sync_interval_minutes * 2 ^ (f.consecutive_failures + 1)) 1440) := rfl
  refine ⟨hnext, ?_, ?_, ?_, ?_⟩
  · intro d hd
    rw [hnext] at hd
    have hd2 := Option.some.inj hd
    omega
  · intro h1 h2
    rw [hnext, h1]
    simp only [Option.some.injEq]
    have e : (2 : ℕ) ^ (0 + 1) = 2 := by norm_num
    rw [e]
    omega
  · intro h1 h2
    rw [hnext, h1]
    simp only [Option.some.injEq]
    have e : (2 : ℕ) ^ (1 + 1) = 4 := by norm_num
    rw [e]
    omega
  · intro h1 h2
    rw [hnext, h1]
    simp only [Option.some.injEq]
    have e : (2 : ℕ) ^ (2 + 1) = 8 := by norm_num
    rw [e]
    omega

/-- Witness for C7 at the default 15-minute interval and one prior failure. -/
theorem C7_failure_backoff_witness :
    (({ id := 1, name := "A", sync_interval_minutes := 15, consecutive_failures := 1 } :
        Feed).record_failure 50 "boom").next_sync_at = some (50 + 15 * 4) :=
  (C7_failure_backoff
    { id := 1, name := "A", sync_interval_minutes := 15, consecutive_failures := 1 }
    50 "boom").2.2.2.1 rfl (by norm_num)

/-! ## C3: circuit-breaker transitions -/

/-- A feed whose circuit is open, about to receive a 304. -/
def c3Feed : Feed :=
  { id := 1, name := "A", sync_interval_minutes := 15,
    consecutive_failures := 3, is_circuit_open := true, circuit_opened_at := some 0 }

/-- C3 counterexample: a NotModified (304) outcome is a successful sync
and resets `consecutive_failures` to 0, but does NOT close the circuit —
refuting the claim that every successful sync outcome, including 304,
closes the circuit. -/
theorem C3_not_modified_leaves_circuit_open :
    (sync (fun _ => "") 100 10 0 [] c3Feed [] [] FetchResult.notModified).success = true ∧
    (sync (fun _ => "") 100 10 0 [] c3Feed [] [] FetchResult.notModified).feed.consecutive_failures
      = 0 ∧
    (sync (fun _ => "") 100 10 0 [] c3Feed [] [] FetchResult.notModified).feed.is_circuit_open
      = true :=
  ⟨rfl, rfl, rfl⟩

/-- C3 (amended): a failure that leaves the post-failure count below 5
does not touch the circuit fields; a failure reaching 5 (or more) opens
the circuit and stamps `circuit_opened_at = now`; `record_success`
(the full-sync success path) closes the circuit and resets the counter;
the NotModified (304) and Unchanged (hash-match) outcomes count as
success and reset `consecutive_failures` to 0 but leave
`is_circuit_open` and `circuit_opened_at` unchanged.  Through `sync`
itself: a fetch failure records exactly `record_failure`; a full
parse-and-reconcile pass closes the circuit when it succeeds, and
records `record_failure` on the feed carrying the new caching tokens
when it aborts. -/
theorem C3_circuit_transitions (hash : String → String) (now today dms : Nat)
    (bookings : List Booking) (f : Feed) (evs : List ICalEvent)
    (avail : List Availability) (msg : String) (dur ep c u r : Nat) :
    (f.consecutive_failures + 1 < 5 →
      (f.record_failure now msg).is_circuit_open = f.is_circuit_open ∧
      (f.record_failure now msg).circuit_opened_at = f.circuit_opened_at ∧
      (f.record_failure now msg).consecutive_failures = f.consecutive_failures + 1) ∧
    (5 ≤ f.consecutive_failures + 1 →
      (f.record_failure now msg).is_circuit_open = true ∧
      (f.record_failure now msg).circuit_opened_at = some now) ∧
    ((f.record_success now dur ep c u r).is_circuit_open = false ∧
      (f.record_success now dur ep c u r).consecutive_failures = 0 ∧
      (f.record_success now dur ep c u r).circuit_opened_at = none) ∧
    ((sync hash now today dms bookings f evs avail .notModified).success = true ∧
      (sync hash now today dms bookings f evs avail .notModified).feed.consecutive_failures = 0 ∧
      (sync hash now today dms bookings f evs avail .notModified).feed.is_circuit_open
        = f.is_circuit_open ∧
      (sync hash now today dms bookings f evs avail .notModified).feed.circuit_opened_at
        = f.circuit_opened_at) ∧
    (∀ etag lm body, hash body = f.last_content_hash →
      (sync hash now today dms bookings f evs avail (.ok etag lm body)).success = true ∧
      (sync hash now today dms bookings f evs avail (.ok etag lm body)).feed.consecutive_failures
        = 0 ∧
      (sync hash now today dms bookings f evs avail (.ok etag lm body)).feed.is_circuit_open
        = f.is_circuit_open ∧
      (sync hash now today dms bookings f evs avail (.ok etag lm body)).feed.circuit_opened_at
        = f.circuit_opened_at) ∧
    ((sync hash now today dms bookings f evs avail (.fetchError msg)).success = false ∧
      (sync hash now today dms bookings f evs avail (.fetchError msg)).feed
        = f.record_failure now msg) ∧
    (∀ etag lm body, hash body ≠ f.last_content_hash →
      ((sync hash now today dms bookings f evs avail (.ok etag lm body)).success = true →
        (sync hash now today dms bookings f evs avail (.ok etag lm body)).feed.is_circuit_open
          = false ∧
        (sync hash now today dms bookings f evs avail
          (.ok etag lm body)).feed.consecutive_failures = 0 ∧
        (sync hash now today dms bookings f evs avail (.ok etag lm body)).feed.circuit_opened_at
          = none) ∧
      ((sync hash now today dms bookings f evs avail (.ok etag lm body)).success = false →
        (sync hash now today dms bookings f evs avail (.ok etag lm body)).feed =
          ({ f with last_etag := etag, last_modified_header := lm,
                    last_fetch_bytes := some body.length,
                    last_content_hash := hash body }).record_failure now "IntegrityError")) := by
  refine ⟨?_, ?_, ⟨rfl, rfl, rfl⟩, ⟨rfl, rfl, rfl, rfl⟩, ?_, ⟨rfl, rfl⟩, ?_⟩
  · intro h
    have h5 : ¬ 5 ≤ f.consecutive_failures + 1 := by omega
    dsimp only [Feed.record_failure]
    rw [if_neg h5]
    exact ⟨rfl, rfl, rfl⟩
  · intro h
    dsimp only [Feed.record_failure]
    rw [if_pos h]
    exact ⟨rfl, rfl⟩
  · intro etag lm body h
    dsimp only [sync]
    rw [if_pos h]
    exact ⟨rfl, rfl, rfl, rfl⟩
  · intro etag lm body hne
    dsimp only [sync]
    rw [if_neg hne]
    cases hr : reconcile ⟨f.id, f.name, today, now, bookings⟩
        ((parse_ical body).map RawEvent.toParsed) evs avail with
    | ok out =>
      dsimp only
      exact ⟨fun _ => ⟨rfl, rfl, rfl⟩, fun habs => by cases habs⟩
    | error e2 =>
      dsimp only
      exact ⟨fun habs => (by cases habs), fun _ => rfl⟩

/-- Witness for C3 (amended) covering both failure branches, the
hash-match branch, and a full parse-and-reconcile success, at concrete
feeds. -/
theorem C3_circuit_transitions_witness :
    ((({ id := 1, name := "A", sync_interval_minutes := 15 } : Feed).record_failure
        7 "x").is_circuit_open = false) ∧
    ((({ id := 1, name := "A", sync_interval_minutes := 15,
         consecutive_failures := 4 } : Feed).record_failure 7 "x").is_circuit_open = true) ∧
    ((sync (fun _ => "h") 9 3 0 []
        { id := 1, name := "A", sync_interval_minutes := 15, last_content_hash := "h",
          is_circuit_open := true, circuit_opened_at := some 2 }
        [] [] (.ok "e" "lm" "body")).feed.is_circuit_open = true) ∧
    ((sync (fun _ => "h") 9 3 0 []
        { id := 1, name := "A", sync_interval_minutes := 15, consecutive_failures := 4,
          is_circuit_open := true, circuit_opened_at := some 2 }
        [] [] (.ok "e" "lm" "x")).feed.is_circuit_open = false) := by
  refine ⟨?_, ?_, ?_, ?_⟩
  · exact ((C3_circuit_transitions (fun _ => "h") 7 3 0 []
      { id := 1, name := "A", sync_interval_minutes := 15 } [] [] "x" 0 0 0 0 0).1
      (by norm_num)).1
  · exact ((C3_circuit_transitions (fun _ => "h") 7 3 0 []
      { id := 1, name := "A", sync_interval_minutes := 15, consecutive_failures := 4 }
      [] [] "x" 0 0 0 0 0).2.1 (by norm_num)).1
  · have h := ((C3_circuit_transitions (fun _ => "h") 9 3 0 []
      { id := 1, name := "A", sync_interval_minutes := 15, last_content_hash := "h",
        is_circuit_open := true, circuit_opened_at := some 2 }
      [] [] "x" 0 0 0 0 0).2.2.2.2.1 "e" "lm" "body" rfl).2.2.1
    exact h
  · have h := (((C3_circuit_transitions (fun _ => "h") 9 3 0 []
      { id := 1, name := "A", sync_interval_minutes := 15, consecutive_failures := 4,
        is_circuit_open := true, circuit_opened_at := some 2 }
      [] [] "x" 0 0 0 0 0).2.2.2.2.2.2 "e" "lm" "x" (by decide)).1 (by decide)).1
    exact h

/-! ## C6: NotModified / Unchanged short-circuit -/

/-- C6: on a 304 and on a content-hash match, `sync` returns the ledger
and availability rows untouched, reports success, and updates only the
feed's sync metadata (status, counters, `next_sync_at`, and — on the
hash-match path — the caching tokens and byte count); the right-hand
sides mention no parse or reconcile, so neither is invoked. -/
theorem C6_short_circuit_frame (hash : String → String) (now today dms : Nat)
    (bookings : List Booking) (f : Feed) (evs : List ICalEvent)
    (avail : List Availability) :
    (sync hash now today dms bookings f evs avail .notModified =
      ⟨{ f with
          last_synced := some now
          last_sync_status := "NOT_MODIFIED"
          total_syncs := f.total_syncs + 1
          successful_syncs := f.successful_syncs + 1
          consecutive_failures := 0
          next_sync_at := some (now + f.sync_interval_minutes) },
        evs, avail, true⟩) ∧
    (∀ etag lm body, hash body = f.last_content_hash →
      sync hash now today dms bookings f evs avail (.ok etag lm body) =
        ⟨{ f with
            last_etag := etag
            last_modified_header := lm
            last_fetch_bytes := some body.length
            last_synced := some now
            last_sync_status := "HASH_MATCH"
            total_syncs := f.total_syncs + 1
            successful_syncs := f.successful_syncs + 1
            consecutive_failures := 0
            next_sync_at := some (now + f.sync_interval_minutes) },
          evs, avail, true⟩) := by
  refine ⟨rfl, ?_⟩
  intro etag lm body h
  dsimp only [sync]
  rw [if_pos h]

/-- Witness for C6 with a concrete stored hash and matching body. -/
theorem C6_short_circuit_frame_witness :
    (sync (fun _ => "h") 9 3 0 []
        { id := 1, name := "A", sync_interval_minutes := 15, last_content_hash := "h" }
        [] [] (.ok "e" "lm" "body")).avail = [] :=
  by rw [(C6_short_circuit_frame (fun _ => "h") 9 3 0 []
      { id := 1, name := "A", sync_interval_minutes := 15, last_content_hash := "h" }
      [] []).2 "e" "lm" "body" rfl]

/-! ## C9: parser output -/

/-- C9 counterexample: `_parse_ical` keeps an event that has neither a
DTSTART nor a DTEND line, so not every record in the parser's output has
non-null parsed dates — the exclusion happens later, in `sync`'s event
loop, not in the parser. -/
theorem C9_parser_keeps_dateless_event :
    parse_ical "BEGIN:VEVENT\r\nUID:x\r\nEND:VEVENT" = [{ uid := some "x" }] ∧
    ({ uid := some "x" } : RawEvent).start = none ∧
    ({ uid := some "x" } : RawEvent).stop = none := by
  refine ⟨by decide, rfl, rfl⟩

/-- C9 (amended): the parser is total (never raises), unparseable date
strings yield a null (`none`) field, and records missing `dtstart` or
`dtend` are NOT excluded by the parser — they appear in its output and
are instead skipped, untouched, by the sync event loop. -/
theorem C9_parser_degrades (ctx : RecCtx) (ev : ParsedEvent) (st : RecState) :
    (ev.start = none ∨ ev.stop = none → processEvent ctx ev st = Except.ok st) ∧
    parse_ical_date "garbage" = none ∧
    parse_ical_date "" = none ∧
    parse_ical "BEGIN:VEVENT\r\nDTSTART:garbage\r\nUID:x\r\nEND:VEVENT" =
      [{ start := some none, uid := some "x" }] := by
  refine ⟨?_, by decide, by decide, by decide⟩
  intro h
  rcases h with h | h
  · unfold processEvent
    rw [h]
  · cases hs : ev.start with
    | none => unfold processEvent; rw [hs]
    | some s => unfold processEvent; rw [hs, h]

/-- Witness for C9 (amended): a record with a `uid` but no dates passes
through the event loop untouched. -/
theorem C9_parser_degrades_witness :
    processEvent ⟨1, "F", 100, 1000, []⟩ { uid := some "z" } ⟨[], 0, 0, [], []⟩ =
      Except.ok ⟨[], 0, 0, [], []⟩ :=
  (C9_parser_degrades ⟨1, "F", 100, 1000, []⟩ { uid := some "z" } ⟨[], 0, 0, [], []⟩).1
    (Or.inl rfl)

/-! ## C8: which events are upserted -/

/-- The ledger row created for the C8 counterexample's cancelled event. -/
def c8Row : ICalEvent :=
  { uid := "u", dtstart := 100, dtend := 102, summary := "S", status := "CANCELLED",
    first_seen_at := 1000, last_seen_at := 1000, missing_since := none, is_deleted := false }

set_option maxRecDepth 100000 in
/-- C8 counterexample: a parsed event with status CANCELLED and valid
future dates IS upserted into the ledger (the upsert precedes the status
check; only block creation is skipped), refuting the claim that only
non-CANCELLED events are upserted. -/
theorem C8_cancelled_event_is_upserted :
    (reconcile ⟨1, "F", 100, 1000, []⟩
      [{ start := some 100, stop := some 102, uid := some "u", summary := some "S",
         status := some "CANCELLED" }] [] []).toOption =
      some ([c8Row], [], 1, 0, 0) ∧
    c8Row.status = "CANCELLED" := by
  exact ⟨by decide, rfl⟩

/-! ## Helper notions and invariants for the availability table -/

/-- The manually blocked rows of the availability table. -/
def manualRows (l : List Availability) : List Availability :=
  l.filter fun r => r.source = "MANUAL"

/-- Well-formedness of manual rows, as the staff views create them:
a manual block carries no feed and no event reference. -/
def ManualWF (l : List Availability) : Prop :=
  ∀ r ∈ l, r.source = "MANUAL" → r.ical_feed = none ∧ r.ical_event = none

/-- The rows of the table at one date. -/
def rowsAt (l : List Availability) (d : Nat) : List Availability :=
  l.filter fun r => r.date = d

/-- The availability table left behind by a block loop, whether it
completed or aborted. -/
def blockOut : Except (List Availability) (List Availability) → List Availability
  | .ok l => l
  | .error l => l

/-- The (ledger, availability) state left behind by the event loop,
whether it completed or aborted. -/
def loopOut : Except (List ICalEvent × List Availability) RecState →
    List ICalEvent × List Availability
  | .ok st => (st.events, st.avail)
  | .error e => e

/-- How every sync-side mutation relates the availability table to its
predecessor: manual rows are exactly preserved, date-uniqueness is
preserved, and any row carrying neither feed nor event reference
survives untouched. -/
def AvailRel (a b : List Availability) : Prop :=
  manualRows b = manualRows a ∧
  ((a.map fun r => r.date).Nodup → (b.map fun r => r.date).Nodup) ∧
  (∀ r ∈ a, r.ical_feed = none → r.ical_event = none → r ∈ b)

theorem AvailRel.refl {a : List Availability} : AvailRel a a :=
  ⟨rfl, id, fun _ hr _ _ => hr⟩

theorem AvailRel.trans {a b c : List Availability} (h1 : AvailRel a b) (h2 : AvailRel b c) :
    AvailRel a c :=
  ⟨h2.1.trans h1.1, fun h => h2.2.1 (h1.2.1 h),
   fun r hr hf he => h2.2.2 r (h1.2.2 r hr hf he) hf he⟩

theorem ManualWF_of_rel {a b : List Availability} (hWF : ManualWF a)
    (h : manualRows b = manualRows a) : ManualWF b := by
  intro r hr hm
  have h1 : r ∈ manualRows b := List.mem_filter.mpr ⟨hr, by simp [hm]⟩
  rw [h] at h1
  have h2 := List.mem_filter.mp h1
  exact hWF r h2.1 hm

theorem hasManual_eq_manualRows (l : List Availability) (d : Nat) :
    hasManual l d = (manualRows l).any fun r => decide (r.date = d) := by
  induction l with
  | nil => rfl
  | cons r rest ih =>
    by_cases h : r.source = "MANUAL" <;>
      simp [hasManual, manualRows, List.filter_cons, h, List.any_cons] at ih ⊢ <;>
      rw [← ih]

theorem hasManual_congr {a b : List Availability} (h : manualRows b = manualRows a)
    (d : Nat) : hasManual b d = hasManual a d := by
  rw [hasManual_eq_manualRows, hasManual_eq_manualRows, h]

/-- The per-row effect of the update branch of the availability upsert. -/
def upd (fid d : Nat) (v : AvailDefaults) (r : Availability) : Availability :=
  if r.date = d && r.ical_feed = some fid then availWrite v r else r

theorem upd_date (fid d : Nat) (v : AvailDefaults) (r : Availability) :
    (upd fid d v r).date = r.date := by
  unfold upd; split <;> rfl

theorem upd_feed (fid d : Nat) (v : AvailDefaults) (r : Availability) :
    (upd fid d v r).ical_feed = r.ical_feed := by
  unfold upd; split <;> rfl

theorem upd_of_feed_none {fid d : Nat} {v : AvailDefaults} {r : Availability}
    (hf : r.ical_feed = none) : upd fid d v r = r := by
  unfold upd
  rw [if_neg]
  simp [hf]

theorem upd_of_ne {fid d : Nat} {v : AvailDefaults} {r : Availability}
    (hd : r.date ≠ d) : upd fid d v r = r := by
  unfold upd
  rw [if_neg]
  simp [hd]

theorem upd_source {fid d : Nat} {v : AvailDefaults} {r : Availability} :
    (upd fid d v r).source = "ICAL" ∨ upd fid d v r = r := by
  unfold upd
  split
  · exact Or.inl rfl
  · exact Or.inr rfl

/-- Case analysis of a successful availability upsert. -/
theorem availUpsert_cases {fid d : Nat} {v : AvailDefaults} {l l2 : List Availability}
    (h : availUpsert fid d v l = some l2) :
    (l2 = l.map (upd fid d v) ∧
      l.any (fun r => r.date = d && r.ical_feed = some fid) = true) ∨
    (l2 = l ++ [availNew fid d v] ∧ l.any (fun r => r.date = d) = false) := by
  unfold availUpsert at h
  by_cases h1 : l.any (fun r => r.date = d && r.ical_feed = some fid) = true
  · rw [if_pos h1] at h
    exact Or.inl ⟨(Option.some.inj h).symm, h1⟩
  · rw [if_neg h1] at h
    by_cases h2 : l.any (fun r => r.date = d) = true
    · rw [if_pos h2] at h
      exact absurd h (by simp)
    · rw [if_neg h2] at h
      exact Or.inr ⟨(Option.some.inj h).symm, by simpa using h2⟩

theorem manualRows_updMap {fid d : Nat} {v : AvailDefaults} {l : List Availability}
    (hWF : ManualWF l) : manualRows (l.map (upd fid d v)) = manualRows l := by
  induction l with
  | nil => rfl
  | cons r rest ih =>
    have ihr := ih fun x hx h => hWF x (List.mem_cons_of_mem r hx) h
    by_cases hm : r.source = "MANUAL"
    · have hf := (hWF r (List.mem_cons_self r rest) hm).1
      rw [List.map_cons, upd_of_feed_none hf]
      simp only [manualRows, List.filter_cons, hm]
      simp only [manualRows] at ihr
      simp [ihr, hm]
    · rcases @upd_source fid d v r with hs | hs
      · rw [List.map_cons]
        simp only [manualRows, List.filter_cons]
        have hs2 : ¬ (upd fid d v r).source = "MANUAL" := by rw [hs]; decide
        simp only [manualRows] at ihr
        simp [hm, hs2, ihr]
      · rw [List.map_cons, hs]
        simp only [manualRows, List.filter_cons]
        simp only [manualRows] at ihr
        simp [hm, ihr]

theorem availUpsert_rel {fid d : Nat} {v : AvailDefaults} {l l2 : List Availability}
    (hWF : ManualWF l) (h : availUpsert fid d v l = some l2) : AvailRel l l2 := by
  rcases availUpsert_cases h with ⟨hb, _⟩ | ⟨hb, hnone⟩
  · subst hb
    refine ⟨manualRows_updMap hWF, ?_, ?_⟩
    · intro hnd
      have hmap : (List.map (fun r => r.date) (l.map (upd fid d v))) =
          l.map fun r => r.date := by
        rw [List.map_map]
        exact List.map_congr_left fun r _ => upd_date fid d v r
      rw [hmap]
      exact hnd
    · intro r hr hf _
      have := @upd_of_feed_none fid d v _ hf
      exact this ▸ List.mem_map_of_mem _ hr
  · subst hb
    refine ⟨?_, ?_, ?_⟩
    · simp [manualRows, List.filter_append, availNew]
    · intro hnd
      simp only [List.map_append, List.map_cons, List.map_nil]
      rw [List.nodup_append]
      refine ⟨hnd, List.nodup_singleton _, ?_⟩
      intro x hx
      simp only [List.mem_singleton]
      intro hxd
      rcases List.mem_map.mp hx with ⟨r, hr, hrd⟩
      have hany : l.any (fun r => r.date = d) = true :=
        List.any_eq_true.mpr ⟨r, hr, by simp [availNew] at hxd; simp [hrd, hxd]⟩
      simp_all
    · intro r hr _ _
      exact List.mem_append_left _ hr

theorem rowsAt_updMap {fid d : Nat} {v : AvailDefaults} {l : List Availability} {d' : Nat}
    (hne : d' ≠ d) : rowsAt (l.map (upd fid d v)) d' = rowsAt l d' := by
  induction l with
  | nil => rfl
  | cons r rest ih =>
    rw [List.map_cons]
    simp only [rowsAt, List.filter_cons, upd_date]
    by_cases hd : r.date = d'
    · have hr : upd fid d v r = r := upd_of_ne (fun hc => hne (hd ▸ hc ▸ rfl))
      simp only [rowsAt] at ih
      simp [hd, hr, ih]
    · simp only [rowsAt] at ih
      simp [hd, ih]

theorem availUpsert_rowsAt {fid d : Nat} {v : AvailDefaults} {l l2 : List Availability}
    (h : availUpsert fid d v l = some l2) {d' : Nat} (hne : d' ≠ d) :
    rowsAt l2 d' = rowsAt l d' := by
  rcases availUpsert_cases h with ⟨hb, _⟩ | ⟨hb, _⟩
  · subst hb
    exact rowsAt_updMap hne
  · subst hb
    simp only [rowsAt, List.filter_append]
    have : (availNew fid d v).date = d := rfl
    simp [List.filter_cons, this, Ne.symm hne]

theorem availUpsert_written {fid d : Nat} {v : AvailDefaults} {l l2 : List Availability}
    (h : availUpsert fid d v l = some l2) :
    ∃ r ∈ l2, r.date = d ∧ r.is_available = false ∧ r.source = "ICAL" ∧
      r.note = v.note ∧ r.external_uid = v.external_uid ∧
      r.ical_feed = some fid ∧ r.ical_event = some v.ical_event := by
  rcases availUpsert_cases h with ⟨hb, hany⟩ | ⟨hb, _⟩
  · subst hb
    rcases List.any_eq_true.mp hany with ⟨r, hr, hcond⟩
    simp only [Bool.and_eq_true, decide_eq_true_eq] at hcond
    refine ⟨upd fid d v r, List.mem_map_of_mem _ hr, ?_⟩
    have hup : upd fid d v r = availWrite v r := by
      unfold upd
      rw [if_pos]
      simp [hcond.1, hcond.2]
    rw [hup]
    exact ⟨hcond.1, rfl, rfl, rfl, rfl, hcond.2, rfl⟩
  · subst hb
    exact ⟨availNew fid d v, List.mem_append_right _ (List.mem_singleton_self _),
      rfl, rfl, rfl, rfl, rfl, rfl, rfl⟩

theorem blockFold_rel {bookings : List Booking} {fid : Nat} {v : AvailDefaults} :
    ∀ (ds : List Nat) (avail : List Availability), ManualWF avail →
      AvailRel avail (blockOut (blockFold bookings fid v ds avail))
  | [], avail, _ => AvailRel.refl
  | d :: ds, avail, hWF => by
    unfold blockFold
    by_cases hg : (!hasManual avail d && !hasBooking bookings d) = true
    · rw [if_pos hg]
      cases hu : availUpsert fid d v avail with
      | some a2 =>
        have h1 := availUpsert_rel hWF hu
        exact h1.trans (blockFold_rel ds a2 (ManualWF_of_rel hWF h1.1))
      | none => exact AvailRel.refl
    · rw [if_neg hg]
      exact blockFold_rel ds avail hWF

theorem blockFold_ok_out {bookings : List Booking} {fid : Nat} {v : AvailDefaults}
    {ds : List Nat} {avail avail2 : List Availability}
    (h : blockFold bookings fid v ds avail = .ok avail2) :
    blockOut (blockFold bookings fid v ds avail) = avail2 := by
  rw [h]
  rfl

theorem blockFold_rowsAt {bookings : List Booking} {fid : Nat} {v : AvailDefaults}
    {d' : Nat} : ∀ (ds : List Nat) (avail : List Availability), d' ∉ ds →
    rowsAt (blockOut (blockFold bookings fid v ds avail)) d' = rowsAt avail d'
  | [], avail, _ => rfl
  | d :: ds, avail, hd => by
    have hne : d' ≠ d := fun hc => hd (hc ▸ List.mem_cons_self d ds)
    have htl : d' ∉ ds := fun hc => hd (List.mem_cons_of_mem d hc)
    unfold blockFold
    by_cases hg : (!hasManual avail d && !hasBooking bookings d) = true
    · rw [if_pos hg]
      cases hu : availUpsert fid d v avail with
      | some a2 => rw [blockFold_rowsAt ds a2 htl, availUpsert_rowsAt hu hne]
      | none => rfl
    · rw [if_neg hg]
      exact blockFold_rowsAt ds avail htl

theorem blockFold_rowsAt_skip {bookings : List Booking} {fid : Nat} {v : AvailDefaults}
    {d' : Nat} : ∀ (ds : List Nat) (avail : List Availability), ManualWF avail →
    (hasManual avail d' = true ∨ hasBooking bookings d' = true) →
    rowsAt (blockOut (blockFold bookings fid v ds avail)) d' = rowsAt avail d'
  | [], avail, _, _ => rfl
  | d :: ds, avail, hWF, hskip => by
    unfold blockFold
    by_cases hdd : d = d'
    · subst hdd
      have hg : (!hasManual avail d && !hasBooking bookings d) = false := by
        rcases hskip with h | h <;> simp [h]
      rw [if_neg (by simp [hg])]
      exact blockFold_rowsAt_skip ds avail hWF hskip
    · by_cases hg : (!hasManual avail d && !hasBooking bookings d) = true
      · rw [if_pos hg]
        cases hu : availUpsert fid d v avail with
        | some a2 =>
          have h1 := availUpsert_rel hWF hu
          have hskip2 : hasManual a2 d' = true ∨ hasBooking bookings d' = true := by
            rcases hskip with h | h
            · exact Or.inl ((hasManual_congr h1.1 d').trans h)
            · exact Or.inr h
          rw [blockFold_rowsAt_skip ds a2 (ManualWF_of_rel hWF h1.1) hskip2,
            availUpsert_rowsAt hu (fun hc => hdd hc.symm)]
        | none => rfl
      · rw [if_neg hg]
        exact blockFold_rowsAt_skip ds avail hWF hskip

theorem blockFold_written {bookings : List Booking} {fid : Nat} {v : AvailDefaults} :
    ∀ (ds : List Nat) (avail avail2 : List Availability), ManualWF avail → ds.Nodup →
    blockFold bookings fid v ds avail = .ok avail2 →
    ∀ d ∈ ds, hasManual avail d = false → hasBooking bookings d = false →
    ∃ r ∈ avail2, r.date = d ∧ r.is_available = false ∧ r.source = "ICAL" ∧
      r.note = v.note ∧ r.external_uid = v.external_uid ∧
      r.ical_feed = some fid ∧ r.ical_event = some v.ical_event
  | [], _, _, _, _, _ => by intro d hd; exact absurd hd (List.not_mem_nil d)
  | d' :: ds, avail, avail2, hWF, hnd, h => by
    intro d hd hman hbook
    rcases List.mem_cons.mp hd with hdd | hdd
    · subst hdd
      unfold blockFold at h
      rw [if_pos (by simp [hman, hbook])] at h
      cases hu : availUpsert fid d v avail with
      | some a2 =>
        rw [hu] at h
        rcases availUpsert_written hu with ⟨r, hr, hfields⟩
        have hdn : d ∉ ds := (List.nodup_cons.mp hnd).1
        have hframe : rowsAt avail2 d = rowsAt a2 d := by
          rw [← blockFold_ok_out h]
          exact blockFold_rowsAt ds a2 hdn
        have hrAt : r ∈ rowsAt a2 d := List.mem_filter.mpr ⟨hr, by simp [hfields.1]⟩
        rw [← hframe] at hrAt
        exact ⟨r, (List.mem_filter.mp hrAt).1, hfields⟩
      | none =>
        rw [hu] at h
        cases h
    · unfold blockFold at h
      by_cases hg : (!hasManual avail d' && !hasBooking bookings d') = true
      · rw [if_pos hg] at h
        cases hu : availUpsert fid d' v avail with
        | some a2 =>
          rw [hu] at h
          have h1 := availUpsert_rel hWF hu
          exact blockFold_written ds a2 avail2 (ManualWF_of_rel hWF h1.1)
            (List.nodup_cons.mp hnd).2 h d hdd
            ((hasManual_congr h1.1 d).trans hman) hbook
        | none =>
          rw [hu] at h
          cases h
      · rw [if_neg hg] at h
        exact blockFold_written ds avail avail2 hWF (List.nodup_cons.mp hnd).2 h d hdd
          hman hbook

/-- An aborted block loop: walking an ascending date list, the fold
errors exactly when it reaches a date with no manual block and no
booking whose rows are all foreign to this feed; that date and every
later one keep their previous rows, while every earlier non-skipped
date of the walk got its imported row, which persists. -/
theorem blockFold_error_spec {bookings : List Booking} {fid : Nat} {v : AvailDefaults} :
    ∀ (ds : List Nat) (avail avail2 : List Availability), ManualWF avail →
    List.Pairwise (· < ·) ds →
    blockFold bookings fid v ds avail = .error avail2 →
    ∃ d ∈ ds, hasManual avail d = false ∧ hasBooking bookings d = false ∧
      rowsAt avail d ≠ [] ∧ (∀ r ∈ rowsAt avail d, r.ical_feed ≠ some fid) ∧
      (∀ d2, d ≤ d2 → rowsAt avail2 d2 = rowsAt avail d2) ∧
      (∀ d2 ∈ ds, d2 < d → hasManual avail d2 = false → hasBooking bookings d2 = false →
        ∃ r ∈ avail2, r.date = d2 ∧ r.is_available = false ∧ r.source = "ICAL" ∧
          r.note = v.note ∧ r.external_uid = v.external_uid ∧
          r.ical_feed = some fid ∧ r.ical_event = some v.ical_event)
  | [], _, _, _, _, h => by cases h
  | d :: ds, avail, avail2, hWF, hsort, h => by
    unfold blockFold at h
    by_cases hg : (!hasManual avail d && !hasBooking bookings d) = true
    · have hman : hasManual avail d = false := by
        cases hx : hasManual avail d
        · rfl
        · rw [hx] at hg
          simp at hg
      have hbook : hasBooking bookings d = false := by
        cases hx : hasBooking bookings d
        · rfl
        · rw [hx] at hg
          simp at hg
      rw [if_pos hg] at h
      cases hu : availUpsert fid d v avail with
      | none =>
        rw [hu] at h
        have havail2 : avail = avail2 := Except.error.inj h
        subst havail2
        unfold availUpsert at hu
        by_cases h1 : (avail.any fun r => r.date = d && r.ical_feed = some fid) = true
        · rw [if_pos h1] at hu
          cases hu
        · rw [if_neg h1] at hu
          by_cases h2 : (avail.any fun r => r.date = d) = true
          · refine ⟨d, List.mem_cons_self d ds, hman, hbook, ?_, ?_, ?_, ?_⟩
            · rcases List.any_eq_true.mp h2 with ⟨r, hr, hrd⟩
              exact List.ne_nil_of_mem (List.mem_filter.mpr ⟨hr, hrd⟩)
            · intro r hr hc
              have hrm := List.mem_filter.mp hr
              apply h1
              refine List.any_eq_true.mpr ⟨r, hrm.1, ?_⟩
              simp only [Bool.and_eq_true, decide_eq_true_eq]
              exact ⟨by simpa using hrm.2, hc⟩
            · intro d2 _
              rfl
            · intro d2 hd2 hlt _ _
              exfalso
              rcases List.mem_cons.mp hd2 with rfl | hin
              · omega
              · have := (List.pairwise_cons.mp hsort).1 d2 hin
                omega
          · rw [if_neg h2] at hu
            cases hu
      | some a2 =>
        rw [hu] at h
        have h' : blockFold bookings fid v ds a2 = .error avail2 := h
        have hrel := availUpsert_rel hWF hu
        obtain ⟨d', hd', hman', hbook', hne', hfeed', hframe', hpre'⟩ :=
          blockFold_error_spec ds a2 avail2 (ManualWF_of_rel hWF hrel.1)
            (List.pairwise_cons.mp hsort).2 h'
        have hdlt : d < d' := (List.pairwise_cons.mp hsort).1 d' hd'
        have hrows' : ∀ d2, d < d2 → rowsAt a2 d2 = rowsAt avail d2 := by
          intro d2 hlt2
          exact availUpsert_rowsAt hu (by omega)
        refine ⟨d', List.mem_cons_of_mem d hd', ?_, hbook', ?_, ?_, ?_, ?_⟩
        · rw [← hasManual_congr hrel.1 d']
          exact hman'
        · rw [← hrows' d' hdlt]
          exact hne'
        · intro r hr
          refine hfeed' r ?_
          rw [hrows' d' hdlt]
          exact hr
        · intro d2 hle
          rw [hframe' d2 hle, hrows' d2 (by omega)]
        · intro d2 hd2 hlt hm hb
          rcases List.mem_cons.mp hd2 with rfl | hin
          · rcases availUpsert_written hu with ⟨r, hr, hfields⟩
            have hdn : d2 ∉ ds := by
              intro hc
              have := (List.pairwise_cons.mp hsort).1 d2 hc
              omega
            have hframe2 : rowsAt avail2 d2 = rowsAt a2 d2 := by
              have hfr := @blockFold_rowsAt bookings fid v d2 ds a2 hdn
              rw [h'] at hfr
              exact hfr
            have hrAt : r ∈ rowsAt a2 d2 := List.mem_filter.mpr ⟨hr, by simp [hfields.1]⟩
            rw [← hframe2] at hrAt
            exact ⟨r, (List.mem_filter.mp hrAt).1, hfields⟩
          · exact hpre' d2 hin hlt ((hasManual_congr hrel.1 d2).trans hm) hb
    · rw [if_neg hg] at h
      have hskipor : hasManual avail d = true ∨ hasBooking bookings d = true := by
        cases hx : hasManual avail d
        · cases hy : hasBooking bookings d
          · exfalso
            apply hg
            simp [hx, hy]
          · exact Or.inr rfl
        · exact Or.inl rfl
      obtain ⟨d', hd', hman', hbook', hne', hfeed', hframe', hpre'⟩ :=
        blockFold_error_spec ds avail avail2 hWF (List.pairwise_cons.mp hsort).2 h
      refine ⟨d', List.mem_cons_of_mem d hd', hman', hbook', hne', hfeed', hframe', ?_⟩
      intro d2 hd2 hlt hm hb
      rcases List.mem_cons.mp hd2 with rfl | hin
      · rcases hskipor with hx | hx
        · rw [hm] at hx
          cases hx
        · rw [hb] at hx
          cases hx
      · exact hpre' d2 hin hlt hm hb

/-! ## C2: half-open night-block materialization -/

/-- The completed block loop: for one upserted non-cancelled event with
dates `[s, e)`, it creates an imported unavailable row exactly at each
date `d` with `s ≤ d < e` that has neither a manual block nor a
PENDING/CONFIRMED booking; every date outside `[s, e)`, and every
skipped date, keeps exactly its previous rows; a zero-length event
(`s = e`) leaves the table untouched. -/
theorem blockLoop_ok_spec (bookings : List Booking) (fid : Nat) (v : AvailDefaults)
    (s e : Nat) (avail avail2 : List Availability) (hWF : ManualWF avail)
    (h : blockLoop bookings fid v s e avail = .ok avail2) :
    (∀ d, s ≤ d → d < e → hasManual avail d = false → hasBooking bookings d = false →
      ∃ r ∈ avail2, r.date = d ∧ r.is_available = false ∧ r.source = "ICAL" ∧
        r.note = v.note ∧ r.external_uid = v.external_uid ∧
        r.ical_feed = some fid ∧ r.ical_event = some v.ical_event) ∧
    (∀ d, d < s ∨ e ≤ d → rowsAt avail2 d = rowsAt avail d) ∧
    (∀ d, hasManual avail d = true ∨ hasBooking bookings d = true →
      rowsAt avail2 d = rowsAt avail d) ∧
    (s = e → avail2 = avail) := by
  unfold blockLoop at h
  have hmem : ∀ d, d ∈ blockDates s e ↔ s ≤ d ∧ d < e := by
    intro d
    unfold blockDates
    rw [List.mem_range'_1]
    omega
  refine ⟨?_, ?_, ?_, ?_⟩
  · intro d h1 h2 hman hbook
    exact blockFold_written (blockDates s e) avail avail2 hWF
      (by unfold blockDates; apply List.nodup_range'; norm_num) h d
      ((hmem d).mpr ⟨h1, h2⟩) hman hbook
  · intro d hout
    rw [← blockFold_ok_out h]
    exact blockFold_rowsAt (blockDates s e) avail
      (fun hc => by rcases (hmem d).mp hc with ⟨a, b⟩; omega)
  · intro d hskip
    rw [← blockFold_ok_out h]
    exact blockFold_rowsAt_skip (blockDates s e) avail hWF hskip
  · intro hse
    subst hse
    unfold blockDates at h
    simp only [Nat.sub_self, List.range'_zero] at h
    exact (Except.ok.inj h).symm

/-- An imported availability row of a different feed (id 2) occupying
2025-06-02 (ordinal 739404): neither a manual block nor a booking. -/
def c2Foreign : Availability :=
  ⟨739404, false, "import", "ICAL", "v", some 2, some (2, "v")⟩

/-- The fetched body of the C2 counterexample: one event over
[2025-06-01, 2025-06-05). -/
def c2Body : String :=
  "BEGIN:VEVENT\r\nDTSTART:20250601\r\nDTEND:20250605\r\nUID:u\r\nEND:VEVENT"

set_option maxRecDepth 1000000 in
/-- C2 counterexample: a date inside `[dtstart, dtend)` occupied by
another feed's imported row — which is neither a manual block nor a
booking — makes the insert violate the unique (apartment, date)
constraint: the `IntegrityError` aborts the sync, which reports failure;
the first night 739403 got its block, but neither the colliding date
739404 nor the later in-range dates 739405 and 739406 get any row for
this feed.  This refutes the claim that rows are created exactly on
`[dtstart, dtend)` skipping only manual-block and booking dates. -/
theorem C2_foreign_feed_aborts :
    (sync (fun _ => "h2") 1000 739400 5 []
        { id := 1, name := "F", sync_interval_minutes := 15 } [] [c2Foreign]
        (.ok "e" "lm" c2Body)).success = false ∧
    (sync (fun _ => "h2") 1000 739400 5 []
        { id := 1, name := "F", sync_interval_minutes := 15 } [] [c2Foreign]
        (.ok "e" "lm" c2Body)).avail =
      [c2Foreign,
       ⟨739403, false, "F: External Booking", "ICAL", "u", some 1, some (1, "u")⟩] ∧
    ((sync (fun _ => "h2") 1000 739400 5 []
        { id := 1, name := "F", sync_interval_minutes := 15 } [] [c2Foreign]
        (.ok "e" "lm" c2Body)).avail.any fun r =>
      r.date = 739405 || r.date = 739406) = false ∧
    hasManual [c2Foreign] 739404 = false ∧ hasBooking [] 739404 = false := by
  exact ⟨by decide, by decide, by decide, rfl, rfl⟩

/-- C2 (amended): for one upserted non-cancelled event with dates
`[s, e)`, the block loop walks the dates of the half-open interval in
ascending order, skipping every date with a manual block or a
PENDING/CONFIRMED booking.  If it completes, imported rows exist exactly
at the non-skipped dates of `[s, e)` — the date `e` itself is never
blocked, skipped and out-of-range dates keep their previous rows, and a
zero-length event (`s = e`) changes nothing.  But if it reaches a
non-skipped date whose existing rows all belong to other feeds or
sources, the unique (apartment, date) constraint fires: the loop aborts
with `IntegrityError`, the colliding date and every later date keep
their previous rows, and the blocks already written at earlier
non-skipped dates persist (the enclosing sync then records a failure). -/
theorem C2_blocks_or_abort (bookings : List Booking) (fid : Nat) (v : AvailDefaults)
    (s e : Nat) (avail : List Availability) (hWF : ManualWF avail) :
    match blockLoop bookings fid v s e avail with
    | .ok avail2 =>
      (∀ d, s ≤ d → d < e → hasManual avail d = false → hasBooking bookings d = false →
        ∃ r ∈ avail2, r.date = d ∧ r.is_available = false ∧ r.source = "ICAL" ∧
          r.note = v.note ∧ r.external_uid = v.external_uid ∧
          r.ical_feed = some fid ∧ r.ical_event = some v.ical_event) ∧
      (∀ d, d < s ∨ e ≤ d → rowsAt avail2 d = rowsAt avail d) ∧
      (∀ d, hasManual avail d = true ∨ hasBooking bookings d = true →
        rowsAt avail2 d = rowsAt avail d) ∧
      (s = e → avail2 = avail)
    | .error avail2 =>
      ∃ d, s ≤ d ∧ d < e ∧ hasManual avail d = false ∧ hasBooking bookings d = false ∧
        rowsAt avail d ≠ [] ∧ (∀ r ∈ rowsAt avail d, r.ical_feed ≠ some fid) ∧
        (∀ d2, d ≤ d2 → rowsAt avail2 d2 = rowsAt avail d2) ∧
        (∀ d2, s ≤ d2 → d2 < d → hasManual avail d2 = false →
          hasBooking bookings d2 = false →
          ∃ r ∈ avail2, r.date = d2 ∧ r.is_available = false ∧ r.source = "ICAL" ∧
            r.note = v.note ∧ r.external_uid = v.external_uid ∧
            r.ical_feed = some fid ∧ r.ical_event = some v.ical_event) := by
  have hmem : ∀ d, d ∈ blockDates s e ↔ s ≤ d ∧ d < e := by
    intro d
    unfold blockDates
    rw [List.mem_range'_1]
    omega
  cases h : blockLoop bookings fid v s e avail with
  | ok avail2 => exact blockLoop_ok_spec bookings fid v s e avail avail2 hWF h
  | error avail2 =>
    unfold blockLoop at h
    obtain ⟨d, hd, hman, hbook, hne, hfeed, hframe, hpre⟩ :=
      blockFold_error_spec (blockDates s e) avail avail2 hWF
        (by unfold blockDates; exact List.pairwise_lt_range' s (e - s)) h
    have hde : d < e := ((hmem d).mp hd).2
    refine ⟨d, ((hmem d).mp hd).1, hde, hman, hbook, hne, hfeed, hframe, ?_⟩
    intro d2 h1 h2 hm hb
    exact hpre d2 ((hmem d2).mpr ⟨h1, by omega⟩) h2 hm hb

/-- Witness for C2 (amended), completed branch: the spec's own example —
an event over [2025-06-01, 2025-06-05) as ordinals [739403, 739407) with
one manual block in range; night 739405 gets an imported row. -/
theorem C2_blocks_or_abort_witness :
    ∃ r ∈ blockOut (blockLoop [] 1 ⟨"F: S", "u", (1, "u")⟩ 739403 739407
        [⟨739404, false, "blocked", "MANUAL", "", none, none⟩]),
      r.date = 739405 ∧ r.is_available = false ∧ r.source = "ICAL" ∧
        r.note = "F: S" ∧ r.external_uid = "u" ∧
        r.ical_feed = some 1 ∧ r.ical_event = some (1, "u") := by
  have h : blockLoop [] 1 ⟨"F: S", "u", (1, "u")⟩ 739403 739407
      [⟨739404, false, "blocked", "MANUAL", "", none, none⟩] =
      .ok [⟨739404, false, "blocked", "MANUAL", "", none, none⟩,
           ⟨739403, false, "F: S", "ICAL", "u", some 1, some (1, "u")⟩,
           ⟨739405, false, "F: S", "ICAL", "u", some 1, some (1, "u")⟩,
           ⟨739406, false, "F: S", "ICAL", "u", some 1, some (1, "u")⟩] := by rfl
  have h2 := C2_blocks_or_abort [] 1 ⟨"F: S", "u", (1, "u")⟩ 739403 739407
    [⟨739404, false, "blocked", "MANUAL", "", none, none⟩]
    (by intro r hr hm; simp at hr; subst hr; exact ⟨rfl, rfl⟩)
  rw [h] at h2
  have hout := h2.1 739405 (by omega) (by omega) (by decide) (by decide)
  rw [show blockOut (blockLoop [] 1 ⟨"F: S", "u", (1, "u")⟩ 739403 739407
      [⟨739404, false, "blocked", "MANUAL", "", none, none⟩]) =
      [⟨739404, false, "blocked", "MANUAL", "", none, none⟩,
       ⟨739403, false, "F: S", "ICAL", "u", some 1, some (1, "u")⟩,
       ⟨739405, false, "F: S", "ICAL", "u", some 1, some (1, "u")⟩,
       ⟨739406, false, "F: S", "ICAL", "u", some 1, some (1, "u")⟩] from by rw [h]; rfl]
  exact hout

/-! ## AvailRel through the event loop, the missing phase, and `sync` -/

theorem processEvent_rel (ctx : RecCtx) (ev : ParsedEvent) (st : RecState)
    (hWF : ManualWF st.avail) : AvailRel st.avail (loopOut (processEvent ctx ev st)).2 := by
  unfold processEvent
  cases hs : ev.start with
  | none => exact AvailRel.refl
  | some s =>
    cases he : ev.stop with
    | none => exact AvailRel.refl
    | some e =>
      dsimp only
      by_cases hpast : e < ctx.today
      · rw [if_pos hpast]
        exact AvailRel.refl
      · rw [if_neg hpast]
        by_cases hcan : (ev.status.getD "CONFIRMED") ≠ "CANCELLED"
        · rw [if_pos hcan]
          cases hb : blockLoop ctx.bookings ctx.fid
              ⟨ctx.fname ++ ": " ++ ev.summary.getD "External Booking", ev.uid.getD "",
                (ctx.fid, ev.uid.getD "")⟩ s e st.avail with
          | ok a2 =>
            have h1 := @blockFold_rel ctx.bookings ctx.fid
              ⟨ctx.fname ++ ": " ++ ev.summary.getD "External Booking", ev.uid.getD "",
                (ctx.fid, ev.uid.getD "")⟩ (blockDates s e) st.avail hWF
            unfold blockLoop at hb
            rw [hb] at h1
            exact h1
          | error a2 =>
            have h1 := @blockFold_rel ctx.bookings ctx.fid
              ⟨ctx.fname ++ ": " ++ ev.summary.getD "External Booking", ev.uid.getD "",
                (ctx.fid, ev.uid.getD "")⟩ (blockDates s e) st.avail hWF
            unfold blockLoop at hb
            rw [hb] at h1
            exact h1
        · rw [if_neg hcan]
          exact AvailRel.refl

theorem eventLoop_rel (ctx : RecCtx) : ∀ (parsed : List ParsedEvent) (st : RecState),
    ManualWF st.avail → AvailRel st.avail (loopOut (eventLoop ctx parsed st)).2
  | [], _, _ => AvailRel.refl
  | ev :: rest, st, hWF => by
    unfold eventLoop
    cases hp : processEvent ctx ev st with
    | ok st2 =>
      have h1 : AvailRel st.avail st2.avail := by
        have h := processEvent_rel ctx ev st hWF
        rw [hp] at h
        exact h
      exact h1.trans (eventLoop_rel ctx rest st2 (ManualWF_of_rel hWF h1.1))
    | error e =>
      have h1 := processEvent_rel ctx ev st hWF
      rw [hp] at h1
      exact h1

theorem manualRows_filter {p : Availability → Bool} {l : List Availability}
    (hp : ∀ r ∈ l, r.source = "MANUAL" → p r = true) :
    manualRows (l.filter p) = manualRows l := by
  induction l with
  | nil => rfl
  | cons r rest ih =>
    have ihr := ih fun x hx h => hp x (List.mem_cons_of_mem r hx) h
    by_cases hm : r.source = "MANUAL"
    · rw [List.filter_cons, if_pos (by simp [hp r (List.mem_cons_self r rest) hm])]
      simp only [manualRows, List.filter_cons, hm]
      simp only [manualRows] at ihr
      simp [hm, ihr]
    · by_cases hpr : p r = true
      · rw [List.filter_cons, if_pos (by simp [hpr])]
        simp only [manualRows, List.filter_cons]
        simp only [manualRows] at ihr
        simp [hm, ihr]
      · rw [List.filter_cons, if_neg (by simp [hpr])]
        simp only [manualRows, List.filter_cons]
        simp only [manualRows] at ihr
        simp [hm, ihr]

theorem missingPhase_rel (fid : Nat) (seen : List String) (now : Nat)
    (evs : List ICalEvent) (avail : List Availability) (hWF : ManualWF avail) :
    AvailRel avail (missingPhase fid seen now evs avail).2.1 := by
  have hkeep : ∀ r ∈ avail, r.ical_event = none →
      (!(evs.any fun e => isExpired seen now e && r.ical_event = some (fid, e.uid))) = true := by
    intro r _ he
    simp [he]
  refine ⟨?_, ?_, ?_⟩
  · exact manualRows_filter fun r hr hm => hkeep r hr (hWF r hr hm).2
  · intro hnd
    exact hnd.sublist (List.Sublist.map _ (List.filter_sublist avail))
  · intro r hr _ he
    exact List.mem_filter.mpr ⟨hr, hkeep r hr he⟩

/-- The (ledger, availability) state a reconciliation leaves behind,
whether it completed or aborted. -/
def recOut : Except (List ICalEvent × List Availability)
    (List ICalEvent × List Availability × Nat × Nat × Nat) →
    List ICalEvent × List Availability
  | .ok out => (out.1, out.2.1)
  | .error e => e

theorem reconcile_rel (ctx : RecCtx) (parsed : List ParsedEvent)
    (evs : List ICalEvent) (avail : List Availability) (hWF : ManualWF avail) :
    AvailRel avail (recOut (reconcile ctx parsed evs avail)).2 := by
  unfold reconcile
  cases hl : eventLoop ctx parsed ⟨[], 0, 0, evs, avail⟩ with
  | error e =>
    have h := eventLoop_rel ctx parsed ⟨[], 0, 0, evs, avail⟩ hWF
    rw [hl] at h
    exact h
  | ok st =>
    have h1 : AvailRel avail st.avail := by
      have h := eventLoop_rel ctx parsed ⟨[], 0, 0, evs, avail⟩ hWF
      rw [hl] at h
      exact h
    exact h1.trans (missingPhase_rel ctx.fid st.seen ctx.now st.events st.avail
      (ManualWF_of_rel hWF h1.1))

theorem sync_rel (hash : String → String) (now today dms : Nat) (bookings : List Booking)
    (f : Feed) (evs : List ICalEvent) (avail : List Availability) (fetch : FetchResult)
    (hWF : ManualWF avail) :
    AvailRel avail (sync hash now today dms bookings f evs avail fetch).avail := by
  unfold sync
  cases fetch with
  | notModified => exact AvailRel.refl
  | fetchError msg => exact AvailRel.refl
  | ok etag lm body =>
    dsimp only
    by_cases hh : hash body = f.last_content_hash
    · rw [if_pos hh]
      exact AvailRel.refl
    · rw [if_neg hh]
      cases hr : reconcile ⟨f.id, f.name, today, now, bookings⟩
          ((parse_ical body).map RawEvent.toParsed) evs avail with
      | ok out =>
        have h := reconcile_rel ⟨f.id, f.name, today, now, bookings⟩
          ((parse_ical body).map RawEvent.toParsed) evs avail hWF
        rw [hr] at h
        exact h
      | error e =>
        have h := reconcile_rel ⟨f.id, f.name, today, now, bookings⟩
          ((parse_ical body).map RawEvent.toParsed) evs avail hWF
        rw [hr] at h
        exact h

/-! ## C5: manual blocks survive every sync pass -/

/-- One sync pass over the shared availability table: each pass may use
its own feed, its own per-feed ledger, its own clock and fetch outcome. -/
structure PassInput where
  hash : String → String
  now : Nat
  today : Nat
  duration_ms : Nat
  bookings : List Booking
  feed : Feed
  events : List ICalEvent
  fetch : FetchResult

/-- A sequence of sync passes over the apartment's availability table. -/
def runPasses : List PassInput → List Availability → List Availability
  | [], avail => avail
  | p :: ps, avail =>
    runPasses ps (sync p.hash p.now p.today p.duration_ms p.bookings p.feed p.events
      avail p.fetch).avail

theorem runPasses_rel : ∀ (passes : List PassInput) (avail : List Availability),
    ManualWF avail → AvailRel avail (runPasses passes avail)
  | [], _, _ => AvailRel.refl
  | p :: ps, avail, hWF => by
    unfold runPasses
    have h1 := sync_rel p.hash p.now p.today p.duration_ms p.bookings p.feed p.events
      avail p.fetch hWF
    exact h1.trans (runPasses_rel ps _ (ManualWF_of_rel hWF h1.1))

/-- C5: a manual block (an `Availability` row with source MANUAL, which
as created by the staff views carries no feed or event reference) is
never created over, overwritten, or deleted by any number of sync passes
of any feeds: the row itself survives unchanged, and it remains the only
row at its date. -/
theorem C5_manual_block_preserved (passes : List PassInput) (avail : List Availability)
    (r : Availability) (hr : r ∈ avail) (hman : r.source = "MANUAL")
    (hWF : ManualWF avail) (hnd : (avail.map fun x => x.date).Nodup) :
    r ∈ runPasses passes avail ∧
    ∀ x ∈ runPasses passes avail, x.date = r.date → x = r := by
  have hrel := runPasses_rel passes avail hWF
  have hmem : r ∈ runPasses passes avail :=
    hrel.2.2 r hr (hWF r hr hman).1 (hWF r hr hman).2
  refine ⟨hmem, ?_⟩
  intro x hx hxd
  exact List.inj_on_of_nodup_map (hrel.2.1 hnd) hx hmem hxd

/-- Witness for C5: the spec's example — a manual block on 2025-06-02
(ordinal 739404) survives a sync pass importing an event that covers it. -/
theorem C5_manual_block_preserved_witness :
    (⟨739404, false, "blocked", "MANUAL", "", none, none⟩ : Availability) ∈
      runPasses
        [⟨fun _ => "h2", 1000, 739400, 5, [],
          { id := 1, name := "F", sync_interval_minutes := 15 }, [],
          .ok "e" "lm" "BEGIN:VEVENT\r\nDTSTART:20250601\r\nDTEND:20250605\r\nUID:u\r\nEND:VEVENT"⟩]
        [⟨739404, false, "blocked", "MANUAL", "", none, none⟩] :=
  (C5_manual_block_preserved _ _ _ (List.mem_singleton_self _) rfl
    (by intro x hx hm; simp at hx; subst hx; exact ⟨rfl, rfl⟩)
    (by simp)).1

/-! ## C1: the two-step missing/grace-period reconciliation -/

/-- C1: in a reconciliation pass, every non-deleted ledger event of the
feed whose uid is absent from the seen set is handled in two steps.
If its `missing_since` is null it is set to `now`, the event is not
deleted, and its blocks are kept; if its `missing_since` is more than 48
hours (2880 minutes) before `now`, the event is marked deleted, every
availability row referencing it is deleted, and it is counted in the
`removed` counter.  (The ledger is keyed by (feed, uid), hence the
uid-uniqueness hypothesis.) -/
theorem C1_missing_two_step (fid : Nat) (seen : List String) (now : Nat)
    (evs : List ICalEvent) (avail : List Availability)
    (hnd : (evs.map fun x => x.uid).Nodup)
    (e : ICalEvent) (he : e ∈ evs) (hdel : e.is_deleted = false)
    (hseen : seen.contains e.uid = false) :
    (e.missing_since = none →
      { e with missing_since := some now } ∈ (missingPhase fid seen now evs avail).1 ∧
      ({ e with missing_since := some now } : ICalEvent).is_deleted = false ∧
      ∀ r ∈ avail, r.ical_event = some (fid, e.uid) →
        r ∈ (missingPhase fid seen now evs avail).2.1) ∧
    (∀ t, e.missing_since = some t → 2880 < now - t →
      { e with is_deleted := true } ∈ (missingPhase fid seen now evs avail).1 ∧
      (∀ r ∈ (missingPhase fid seen now evs avail).2.1, r.ical_event ≠ some (fid, e.uid)) ∧
      isExpired seen now e = true ∧
      (missingPhase fid seen now evs avail).2.2 = (evs.filter (isExpired seen now)).length ∧
      0 < (missingPhase fid seen now evs avail).2.2) := by
  have hguard : (!e.is_deleted && !seen.contains e.uid) = true := by
    rw [hdel, hseen]
    rfl
  constructor
  · intro hms
    have htouch : missTouch seen now e = { e with missing_since := some now } := by
      unfold missTouch
      rw [if_pos hguard, hms]
    refine ⟨htouch ▸ List.mem_map_of_mem _ he, hdel, ?_⟩
    intro r hr hkey
    apply List.mem_filter.mpr
    refine ⟨hr, ?_⟩
    have hany : (evs.any fun x => isExpired seen now x && r.ical_event = some (fid, x.uid))
        = false := by
      rw [List.any_eq_false]
      intro x hx
      simp only [Bool.and_eq_true, decide_eq_true_eq, not_and]
      intro hex hkey2
      have heq : ((fid, e.uid) : Nat × String) = (fid, x.uid) := by
        apply Option.some.inj
        rw [← hkey, ← hkey2]
      have huid : x.uid = e.uid := (Prod.ext_iff.mp heq).2.symm
      have hxe : x = e := List.inj_on_of_nodup_map hnd hx he huid
      subst hxe
      unfold isExpired at hex
      rw [hms] at hex
      simp at hex
    simp [hany]
  · intro t hms hgt
    have htouch : missTouch seen now e = { e with is_deleted := true } := by
      unfold missTouch
      rw [if_pos hguard, hms]
      dsimp only
      rw [if_pos hgt]
    have hexp : isExpired seen now e = true := by
      unfold isExpired
      rw [hdel, hseen, hms]
      simp [hgt]
    refine ⟨htouch ▸ List.mem_map_of_mem _ he, ?_, hexp, rfl, ?_⟩
    · intro r hr hkey
      have := (List.mem_filter.mp hr).2
      rw [Bool.not_eq_eq_eq_not, Bool.not_true, List.any_eq_false] at this
      have h2 := this e he
      simp only [Bool.and_eq_true, decide_eq_true_eq, not_and] at h2
      exact h2 hexp hkey
    · have : e ∈ evs.filter (isExpired seen now) := List.mem_filter.mpr ⟨he, hexp⟩
      have hpos := List.length_pos.mpr (List.ne_nil_of_mem this)
      exact hpos

/-- Witness for C1 covering both steps at concrete ledgers: a first-time
missing event is stamped (and its block kept), and an event missing for
49 hours is tombstoned with its block deleted and counted. -/
theorem C1_missing_two_step_witness :
    ({ uid := "a", dtstart := 5, dtend := 7, summary := "s", status := "CONFIRMED",
       first_seen_at := 0, last_seen_at := 0, missing_since := some 100,
       is_deleted := false } : ICalEvent) ∈
      (missingPhase 1 [] 100
        [{ uid := "a", dtstart := 5, dtend := 7, summary := "s", status := "CONFIRMED",
           first_seen_at := 0, last_seen_at := 0, missing_since := none,
           is_deleted := false }] []).1 ∧
    ({ uid := "b", dtstart := 5, dtend := 7, summary := "s", status := "CONFIRMED",
       first_seen_at := 0, last_seen_at := 0, missing_since := some 100,
       is_deleted := true } : ICalEvent) ∈
      (missingPhase 1 [] 3040
        [{ uid := "b", dtstart := 5, dtend := 7, summary := "s", status := "CONFIRMED",
           first_seen_at := 0, last_seen_at := 0, missing_since := some 100,
           is_deleted := false }]
        [⟨5, false, "n", "ICAL", "b", some 1, some (1, "b")⟩]).1 ∧
    (missingPhase 1 [] 3040
        [{ uid := "b", dtstart := 5, dtend := 7, summary := "s", status := "CONFIRMED",
           first_seen_at := 0, last_seen_at := 0, missing_since := some 100,
           is_deleted := false }]
        [⟨5, false, "n", "ICAL", "b", some 1, some (1, "b")⟩]).2.2 = 1 ∧
    (∀ r ∈ (missingPhase 1 [] 3040
        [{ uid := "b", dtstart := 5, dtend := 7, summary := "s", status := "CONFIRMED",
           first_seen_at := 0, last_seen_at := 0, missing_since := some 100,
           is_deleted := false }]
        [⟨5, false, "n", "ICAL", "b", some 1, some (1, "b")⟩]).2.1,
      r.ical_event ≠ some (1, "b")) := by
  have h1 := (C1_missing_two_step 1 [] 100
    [{ uid := "a", dtstart := 5, dtend := 7, summary := "s", status := "CONFIRMED",
       first_seen_at := 0, last_seen_at := 0, missing_since := none, is_deleted := false }]
    [] (by decide) _ (List.mem_singleton_self _) rfl rfl).1 rfl
  have h2 := (C1_missing_two_step 1 [] 3040
    [{ uid := "b", dtstart := 5, dtend := 7, summary := "s", status := "CONFIRMED",
       first_seen_at := 0, last_seen_at := 0, missing_since := some 100,
       is_deleted := false }]
    [⟨5, false, "n", "ICAL", "b", some 1, some (1, "b")⟩] (by decide) _
    (List.mem_singleton_self _) rfl rfl).2 100 rfl (by norm_num)
  exact ⟨h1.1, h2.1, by decide, h2.2.1⟩

/-! ## C10: events entirely in the past are skipped, then expire -/

/-- C10: a parsed event whose `dtend` is strictly before today is
neither upserted nor added to the seen set (the loop body leaves the
state untouched); consequently a ledger event still present in the feed
text but with a past `dtend` is a missing candidate: one reconciliation
pass over just that event stamps `missing_since = now` on its ledger
row, and once that stamp is more than 48 hours old a pass marks the row
deleted and deletes its blocks. -/
theorem C10_past_event_expires (ctx : RecCtx) (ev : ParsedEvent) (st : RecState)
    (s e : Nat) (hs : ev.start = some s) (he : ev.stop = some e) (hlt : e < ctx.today) :
    processEvent ctx ev st = Except.ok st ∧
    (∀ (evs : List ICalEvent) (avail : List Availability) (w : ICalEvent) evs2 avail2 c u rm,
      (evs.map fun x => x.uid).Nodup → w ∈ evs → w.is_deleted = false →
      reconcile ctx [ev] evs avail = .ok (evs2, avail2, c, u, rm) →
      (w.missing_since = none → { w with missing_since := some ctx.now } ∈ evs2) ∧
      (∀ t, w.missing_since = some t → 2880 < ctx.now - t →
        { w with is_deleted := true } ∈ evs2 ∧
        ∀ r ∈ avail2, r.ical_event ≠ some (ctx.fid, w.uid))) := by
  have hskip : processEvent ctx ev st = Except.ok st := by
    unfold processEvent
    rw [hs, he]
    dsimp only
    rw [if_pos hlt]
  refine ⟨hskip, ?_⟩
  intro evs avail w evs2 avail2 c u rm hnd hw hdel hrec
  have hskip0 : processEvent ctx ev ⟨[], 0, 0, evs, avail⟩ = Except.ok ⟨[], 0, 0, evs, avail⟩ := by
    unfold processEvent
    rw [hs, he]
    dsimp only
    rw [if_pos hlt]
  have hloop : eventLoop ctx [ev] ⟨[], 0, 0, evs, avail⟩ = .ok ⟨[], 0, 0, evs, avail⟩ := by
    unfold eventLoop
    rw [hskip0]
    rfl
  unfold reconcile at hrec
  rw [hloop] at hrec
  dsimp only at hrec
  have hreset : ∀ l : List ICalEvent, resetPhase [] l = l := by
    intro l
    unfold resetPhase
    simp
  rw [hreset] at hrec
  have hevs2 : evs2 = (missingPhase ctx.fid [] ctx.now evs avail).1 := by
    have := Except.ok.inj hrec
    exact (congrArg Prod.fst this).symm
  have havail2 : avail2 = (missingPhase ctx.fid [] ctx.now evs avail).2.1 := by
    have h1 := Except.ok.inj hrec
    have := congrArg Prod.snd h1
    exact (congrArg Prod.fst this).symm
  have hc1 := C1_missing_two_step ctx.fid [] ctx.now evs avail hnd w hw hdel rfl
  constructor
  · intro hms
    rw [hevs2]
    exact (hc1.1 hms).1
  · intro t hms hgt
    rw [hevs2, havail2]
    exact ⟨(hc1.2 t hms hgt).1, (hc1.2 t hms hgt).2.1⟩

/-- Witness for C10: a still-present event with past dtend is skipped,
and its 49-hours-missing ledger row is tombstoned by the pass. -/
theorem C10_past_event_expires_witness :
    processEvent ⟨1, "F", 739410, 3040, []⟩
      { start := some 739401, stop := some 739405, uid := some "E1", summary := some "S",
        status := some "CONFIRMED" } ⟨[], 0, 0, [], []⟩ = Except.ok ⟨[], 0, 0, [], []⟩ ∧
    ({ uid := "E1", dtstart := 739401, dtend := 739405, summary := "S",
       status := "CONFIRMED", first_seen_at := 0, last_seen_at := 0,
       missing_since := some 100, is_deleted := true } : ICalEvent) ∈
      (fun out => out.1)
        ((missingPhase 1 [] 3040
          [{ uid := "E1", dtstart := 739401, dtend := 739405, summary := "S",
             status := "CONFIRMED", first_seen_at := 0, last_seen_at := 0,
             missing_since := some 100, is_deleted := false }] []).1, ()) := by
  have h := C10_past_event_expires ⟨1, "F", 739410, 3040, []⟩
    { start := some 739401, stop := some 739405, uid := some "E1", summary := some "S",
      status := some "CONFIRMED" } ⟨[], 0, 0, [], []⟩ 739401 739405 rfl rfl (by norm_num)
  refine ⟨h.1, ?_⟩
  have h2 := (h.2
    [{ uid := "E1", dtstart := 739401, dtend := 739405, summary := "S",
       status := "CONFIRMED", first_seen_at := 0, last_seen_at := 0,
       missing_since := some 100, is_deleted := false }] [] _ _ _ _ _ _
    (by decide) (List.mem_singleton_self _) rfl (by rfl)).2 100 rfl (by norm_num)
  exact h2.1

/-! ## C8 (amended): upsert regardless of status -/

theorem availUpsert_date_mem {fid d : Nat} {v : AvailDefaults} {l l2 : List Availability}
    (h : availUpsert fid d v l = some l2) {d' : Nat}
    (hd : ∃ r ∈ l, r.date = d') : ∃ r ∈ l2, r.date = d' := by
  rcases availUpsert_cases h with ⟨hb, _⟩ | ⟨hb, _⟩ <;> subst hb
  · rcases hd with ⟨r, hr, hrd⟩
    exact ⟨upd fid d v r, List.mem_map_of_mem _ hr, (upd_date fid d v r).trans hrd⟩
  · rcases hd with ⟨r, hr, hrd⟩
    exact ⟨r, List.mem_append_left _ hr, hrd⟩

theorem blockFold_date_mem {bookings : List Booking} {fid : Nat} {v : AvailDefaults}
    {d' : Nat} : ∀ (ds : List Nat) (avail : List Availability),
    (∃ r ∈ avail, r.date = d') →
    ∃ r ∈ blockOut (blockFold bookings fid v ds avail), r.date = d'
  | [], _, hd => hd
  | d :: ds, avail, hd => by
    unfold blockFold
    by_cases hg : (!hasManual avail d && !hasBooking bookings d) = true
    · rw [if_pos hg]
      cases hu : availUpsert fid d v avail with
      | some a2 => exact blockFold_date_mem ds a2 (availUpsert_date_mem hu hd)
      | none => exact hd
    · rw [if_neg hg]
      exact blockFold_date_mem ds avail hd

theorem processEvent_date_mem (ctx : RecCtx) (ev : ParsedEvent) (st : RecState) {d' : Nat}
    (hd : ∃ r ∈ st.avail, r.date = d') :
    ∃ r ∈ (loopOut (processEvent ctx ev st)).2, r.date = d' := by
  unfold processEvent
  cases hs : ev.start with
  | none => exact hd
  | some s =>
    cases he : ev.stop with
    | none => exact hd
    | some e =>
      dsimp only
      by_cases hpast : e < ctx.today
      · rw [if_pos hpast]
        exact hd
      · rw [if_neg hpast]
        by_cases hcan : (ev.status.getD "CONFIRMED") ≠ "CANCELLED"
        · rw [if_pos hcan]
          cases hb : blockLoop ctx.bookings ctx.fid
              ⟨ctx.fname ++ ": " ++ ev.summary.getD "External Booking", ev.uid.getD "",
                (ctx.fid, ev.uid.getD "")⟩ s e st.avail with
          | ok a2 =>
            have h1 := @blockFold_date_mem ctx.bookings ctx.fid
              ⟨ctx.fname ++ ": " ++ ev.summary.getD "External Booking", ev.uid.getD "",
                (ctx.fid, ev.uid.getD "")⟩ d' (blockDates s e) st.avail hd
            unfold blockLoop at hb
            rw [hb] at h1
            exact h1
          | error a2 =>
            have h1 := @blockFold_date_mem ctx.bookings ctx.fid
              ⟨ctx.fname ++ ": " ++ ev.summary.getD "External Booking", ev.uid.getD "",
                (ctx.fid, ev.uid.getD "")⟩ d' (blockDates s e) st.avail hd
            unfold blockLoop at hb
            rw [hb] at h1
            exact h1
        · rw [if_neg hcan]
          exact hd

theorem eventLoop_date_mem (ctx : RecCtx) {d' : Nat} : ∀ (parsed : List ParsedEvent)
    (st : RecState), (∃ r ∈ st.avail, r.date = d') →
    ∃ r ∈ (loopOut (eventLoop ctx parsed st)).2, r.date = d'
  | [], _, hd => hd
  | ev :: rest, st, hd => by
    unfold eventLoop
    cases hp : processEvent ctx ev st with
    | ok st2 =>
      have h1 := processEvent_date_mem ctx ev st hd
      rw [hp] at h1
      exact eventLoop_date_mem ctx rest st2 h1
    | error e =>
      have h1 := processEvent_date_mem ctx ev st hd
      rw [hp] at h1
      exact h1

/-- C8 (amended): every parsed event with both dates present and
`dtend ≥ today` is upserted into the ledger regardless of status —
created with `first_seen_at = now` when the uid is absent, and in every
case leaving the row with `missing_since` cleared and `is_deleted`
false; a CANCELLED event is excluded only from night-block creation
(its loop iteration leaves the availability table untouched); and the
event loop never removes an availability row — a previously created
block disappears only through the missing/grace-period deletion, which
removes exactly the rows referencing an expired ledger event. -/
theorem C8_upsert_regardless_of_status (ctx : RecCtx) (ev : ParsedEvent) (st : RecState)
    (s e : Nat) (hs : ev.start = some s) (he : ev.stop = some e) (hpast : ¬ e < ctx.today) :
    (loopOut (processEvent ctx ev st)).1 =
      (eventUpsert ctx.now (ev.uid.getD "") s e
        (if ev.summary.getD "External Booking" ≠ "" then
          String.mk ((ev.summary.getD "External Booking").data.take 500) else "")
        (ev.status.getD "CONFIRMED") st.events).1 ∧
    (ev.status = some "CANCELLED" →
      processEvent ctx ev st = Except.ok
        ⟨seenAdd st.seen (ev.uid.getD ""),
         (if (eventUpsert ctx.now (ev.uid.getD "") s e
            (if ev.summary.getD "External Booking" ≠ "" then
              String.mk ((ev.summary.getD "External Booking").data.take 500) else "")
            "CANCELLED" st.events).2 then st.created + 1 else st.created),
         (if (eventUpsert ctx.now (ev.uid.getD "") s e
            (if ev.summary.getD "External Booking" ≠ "" then
              String.mk ((ev.summary.getD "External Booking").data.take 500) else "")
            "CANCELLED" st.events).2 then st.updated else st.updated + 1),
         (eventUpsert ctx.now (ev.uid.getD "") s e
            (if ev.summary.getD "External Booking" ≠ "" then
              String.mk ((ev.summary.getD "External Booking").data.take 500) else "")
            "CANCELLED" st.events).1,
         st.avail⟩) ∧
    ((∀ x ∈ st.events, ¬ x.uid = ev.uid.getD "") →
      (eventUpsert ctx.now (ev.uid.getD "") s e
        (if ev.summary.getD "External Booking" ≠ "" then
          String.mk ((ev.summary.getD "External Booking").data.take 500) else "")
        (ev.status.getD "CONFIRMED") st.events).1 =
      st.events ++ [{ uid := ev.uid.getD "", dtstart := s, dtend := e,
                      summary := (if ev.summary.getD "External Booking" ≠ "" then
                        String.mk ((ev.summary.getD "External Booking").data.take 500) else ""),
                      status := ev.status.getD "CONFIRMED", first_seen_at := ctx.now,
                      last_seen_at := ctx.now, missing_since := none,
                      is_deleted := false }]) ∧
    (∀ x ∈ (eventUpsert ctx.now (ev.uid.getD "") s e
        (if ev.summary.getD "External Booking" ≠ "" then
          String.mk ((ev.summary.getD "External Booking").data.take 500) else "")
        (ev.status.getD "CONFIRMED") st.events).1,
      x.uid = ev.uid.getD "" → x.missing_since = none ∧ x.is_deleted = false) ∧
    (∀ (parsed : List ParsedEvent) (st2 : RecState) (d : Nat),
      eventLoop ctx parsed st = .ok st2 → (∃ r ∈ st.avail, r.date = d) →
      ∃ r ∈ st2.avail, r.date = d) ∧
    (∀ (fid : Nat) (seen : List String) (now : Nat) (evs : List ICalEvent)
        (avail : List Availability), ∀ r ∈ avail,
      r ∉ (missingPhase fid seen now evs avail).2.1 →
      ∃ x ∈ evs, isExpired seen now x = true ∧ r.ical_event = some (fid, x.uid)) := by
  have hfirst : (loopOut (processEvent ctx ev st)).1 =
      (eventUpsert ctx.now (ev.uid.getD "") s e
        (if ev.summary.getD "External Booking" ≠ "" then
          String.mk ((ev.summary.getD "External Booking").data.take 500) else "")
        (ev.status.getD "CONFIRMED") st.events).1 := by
    unfold processEvent
    rw [hs, he]
    dsimp only
    rw [if_neg hpast]
    by_cases hcan : (ev.status.getD "CONFIRMED") ≠ "CANCELLED"
    · rw [if_pos hcan]
      cases hb : blockLoop ctx.bookings ctx.fid
          ⟨ctx.fname ++ ": " ++ ev.summary.getD "External Booking", ev.uid.getD "",
            (ctx.fid, ev.uid.getD "")⟩ s e st.avail with
      | ok a2 => rfl
      | error a2 => rfl
    · rw [if_neg hcan]
      rfl
  refine ⟨hfirst, ?_, ?_, ?_, ?_, ?_⟩
  · intro hcan
    unfold processEvent
    rw [hs, he, hcan]
    dsimp only
    rw [if_neg hpast, if_neg (by simp)]
    rfl
  · intro habsent
    unfold eventUpsert
    rw [if_neg (by
      intro hc
      rcases List.any_eq_true.mp hc with ⟨x, hx, hxu⟩
      exact habsent x hx (by simpa using hxu))]
  · intro x hx hxu
    unfold eventUpsert at hx
    by_cases hany : st.events.any (fun y => y.uid = ev.uid.getD "") = true
    · rw [if_pos hany] at hx
      simp only at hx
      rcases List.mem_map.mp hx with ⟨y, _, hyx⟩
      by_cases hyu : y.uid = ev.uid.getD ""
      · rw [if_pos (by simp [hyu])] at hyx
        subst hyx
        exact ⟨rfl, rfl⟩
      · rw [if_neg (by simp [hyu])] at hyx
        subst hyx
        exact absurd hxu hyu
    · rw [if_neg hany] at hx
      simp only at hx
      rcases List.mem_append.mp hx with hx | hx
      · exact absurd hxu (by
          intro hc
          exact hany (List.any_eq_true.mpr ⟨x, hx, by simp [hc]⟩))
      · rw [List.mem_singleton.mp hx]
        exact ⟨rfl, rfl⟩
  · intro parsed st2 d hloop hd
    have h1 := eventLoop_date_mem ctx parsed st hd
    rw [hloop] at h1
    exact h1
  · intro fid seen now evs avail r hr hout
    by_cases hk : (evs.any fun x => isExpired seen now x && r.ical_event = some (fid, x.uid))
        = true
    · rcases List.any_eq_true.mp hk with ⟨x, hx, hcond⟩
      simp only [Bool.and_eq_true, decide_eq_true_eq] at hcond
      exact ⟨x, hx, hcond.1, hcond.2⟩
    · exact absurd (List.mem_filter.mpr ⟨hr, by simp [hk]⟩) hout

/-- Witness for C8 (amended) at a concrete cancelled event over an empty
ledger: upserted with `first_seen_at = now`, no block rows created. -/
theorem C8_upsert_regardless_of_status_witness :
    processEvent ⟨1, "F", 100, 1000, []⟩
      { start := some 100, stop := some 102, uid := some "u", summary := some "S",
        status := some "CANCELLED" } ⟨[], 0, 0, [], []⟩ =
    Except.ok ⟨["u"], 1, 0,
      [{ uid := "u", dtstart := 100, dtend := 102, summary := "S", status := "CANCELLED",
         first_seen_at := 1000, last_seen_at := 1000, missing_since := none,
         is_deleted := false }], []⟩ := by
  have h := (C8_upsert_regardless_of_status ⟨1, "F", 100, 1000, []⟩
    { start := some 100, stop := some 102, uid := some "u", summary := some "S",
      status := some "CANCELLED" } ⟨[], 0, 0, [], []⟩ 100 102 rfl rfl (by norm_num)).2.1 rfl
  rw [h]
  rfl

/-! ## C4: idempotency of the reconciliation step.

The event loop entangles the ledger, the seen set and the availability
table; to reason about a second run we first factor it (proved below,
`eventLoop_decompose`) into three independent folds: a seen-set fold, a
ledger fold, and a sequence of guarded availability writes (the
"trace"), the guards being stable because the manual set is invariant
during the event phase. -/

/-- The shorthands the loop body computes with `dict.get` defaults. -/
def evUid (ev : ParsedEvent) : String := ev.uid.getD ""

/-- The truncated summary written into the ledger row. -/
def evSummary (ev : ParsedEvent) : String :=
  if ev.summary.getD "External Booking" ≠ "" then
    String.mk ((ev.summary.getD "External Booking").data.take 500)
  else ""

/-- The status string written into the ledger row. -/
def evStatus (ev : ParsedEvent) : String := ev.status.getD "CONFIRMED"

/-- The availability defaults one event's block loop writes. -/
def evDefaults (ctx : RecCtx) (ev : ParsedEvent) : AvailDefaults :=
  ⟨ctx.fname ++ ": " ++ ev.summary.getD "External Booking", evUid ev, (ctx.fid, evUid ev)⟩

/-- Whether the loop keeps an event (both dates present, not in the past). -/
def keptEv (today : Nat) (ev : ParsedEvent) : Bool :=
  match ev.start, ev.stop with
  | some _, some e => !(e < today)
  | _, _ => false

/-- The uids of the kept events, in order. -/
def keptUids (today : Nat) (parsed : List ParsedEvent) : List String :=
  (parsed.filter (keptEv today)).map evUid

/-- Sequential availability upserts; `none` models the first
`IntegrityError`. -/
def applyWrites (fid : Nat) : List (Nat × AvailDefaults) → List Availability →
    Option (List Availability)
  | [], a => some a
  | w :: ws, a =>
    match availUpsert fid w.1 w.2 a with
    | some a2 => applyWrites fid ws a2
    | none => none

/-- The write trace of one block loop, relative to a frozen manual set. -/
def evWrites (man : Nat → Bool) (bookings : List Booking) (v : AvailDefaults)
    (ds : List Nat) : List (Nat × AvailDefaults) :=
  (ds.filter fun d => !man d && !hasBooking bookings d).map fun d => (d, v)

/-- The write trace of one loop iteration. -/
def pevWrites (ctx : RecCtx) (man : Nat → Bool) (ev : ParsedEvent) :
    List (Nat × AvailDefaults) :=
  match ev.start, ev.stop with
  | some s, some e =>
    if e < ctx.today then []
    else if evStatus ev ≠ "CANCELLED" then
      evWrites man ctx.bookings (evDefaults ctx ev) (blockDates s e)
    else []
  | _, _ => []

/-- The write trace of the whole event loop. -/
def traceWrites (ctx : RecCtx) (man : Nat → Bool) (parsed : List ParsedEvent) :
    List (Nat × AvailDefaults) :=
  (parsed.map (pevWrites ctx man)).flatten

/-- The effect of one loop iteration on the ledger alone. -/
def ledgerStep (ctx : RecCtx) (ev : ParsedEvent) (evs : List ICalEvent) : List ICalEvent :=
  match ev.start, ev.stop with
  | some s, some e =>
    if e < ctx.today then evs
    else (eventUpsert ctx.now (evUid ev) s e (evSummary ev) (evStatus ev) evs).1
  | _, _ => evs

/-- The effect of the whole event loop on the ledger alone. -/
def ledgerFold (ctx : RecCtx) : List ParsedEvent → List ICalEvent → List ICalEvent
  | [], evs => evs
  | ev :: rest, evs => ledgerFold ctx rest (ledgerStep ctx ev evs)

/-- The effect of one loop iteration on the seen set alone. -/
def seenStep (today : Nat) (ev : ParsedEvent) (seen : List String) : List String :=
  match ev.start, ev.stop with
  | some _, some e => if e < today then seen else seenAdd seen (evUid ev)
  | _, _ => seen

/-- The effect of the whole event loop on the seen set alone. -/
def seenFold (today : Nat) : List ParsedEvent → List String → List String
  | [], seen => seen
  | ev :: rest, seen => seenFold today rest (seenStep today ev seen)

theorem applyWrites_append (fid : Nat) : ∀ (ws1 ws2 : List (Nat × AvailDefaults))
    (a : List Availability), applyWrites fid (ws1 ++ ws2) a =
      (applyWrites fid ws1 a).bind (applyWrites fid ws2)
  | [], _, _ => rfl
  | w :: ws1, ws2, a => by
    simp only [List.cons_append, applyWrites]
    cases availUpsert fid w.1 w.2 a with
    | some a2 => exact applyWrites_append fid ws1 ws2 a2
    | none => rfl

theorem applyWrites_rel {fid : Nat} : ∀ (ws : List (Nat × AvailDefaults))
    (a b : List Availability), ManualWF a → applyWrites fid ws a = some b → AvailRel a b
  | [], _, _, _, h => by
    rw [Option.some.inj h]
    exact AvailRel.refl
  | w :: ws, a, b, hWF, h => by
    unfold applyWrites at h
    cases hu : availUpsert fid w.1 w.2 a with
    | some a2 =>
      rw [hu] at h
      have h1 := availUpsert_rel hWF hu
      exact h1.trans (applyWrites_rel ws a2 b (ManualWF_of_rel hWF h1.1) h)
    | none =>
      rw [hu] at h
      cases h

/-- The last write at a date in a trace. -/
def lastWrite (ws : List (Nat × AvailDefaults)) (d : Nat) : Option AvailDefaults :=
  ((ws.filter fun w => w.1 = d).map Prod.snd).getLast?

theorem lastWrite_cons_of_mem {w : Nat × AvailDefaults} {ws : List (Nat × AvailDefaults)}
    {d : Nat} (h : (lastWrite ws d).isSome) : lastWrite (w :: ws) d = lastWrite ws d := by
  unfold lastWrite at h ⊢
  rw [List.filter_cons]
  split
  · rw [List.map_cons]
    cases hl : (ws.filter fun x => x.1 = d).map Prod.snd with
    | nil => rw [hl] at h; simp [List.getLast?] at h
    | cons y ys => rw [List.getLast?_cons_cons]
  · rfl

theorem lastWrite_cons_self {w : Nat × AvailDefaults} {ws : List (Nat × AvailDefaults)}
    (hw : w.1 = d) (h : lastWrite ws d = none) : lastWrite (w :: ws) d = some w.2 := by
  unfold lastWrite at h ⊢
  rw [List.filter_cons, if_pos (by simp [hw]), List.map_cons]
  cases hl : (ws.filter fun x => x.1 = d).map Prod.snd with
  | nil => rfl
  | cons y ys => rw [hl] at h; simp at h

theorem lastWrite_cons_of_ne {w : Nat × AvailDefaults} {ws : List (Nat × AvailDefaults)}
    {d : Nat} (hw : ¬ w.1 = d) : lastWrite (w :: ws) d = lastWrite ws d := by
  unfold lastWrite
  rw [List.filter_cons, if_neg (by simp [hw])]

theorem lastWrite_isSome_of_mem {ws : List (Nat × AvailDefaults)} {w : Nat × AvailDefaults}
    (hw : w ∈ ws) : (lastWrite ws w.1).isSome := by
  unfold lastWrite
  have : w ∈ ws.filter fun x => x.1 = w.1 := List.mem_filter.mpr ⟨hw, by simp⟩
  have h2 : w.2 ∈ (ws.filter fun x => x.1 = w.1).map Prod.snd := List.mem_map_of_mem _ this
  rw [List.getLast?_isSome]
  exact List.ne_nil_of_mem h2

theorem applyWrites_nodup {fid : Nat} : ∀ (ws : List (Nat × AvailDefaults))
    (a b : List Availability), applyWrites fid ws a = some b →
    (a.map fun r => r.date).Nodup → (b.map fun r => r.date).Nodup
  | [], a, b, h, hnd => by rw [Option.some.inj h] at hnd; exact hnd
  | w :: ws, a, b, h, hnd => by
    unfold applyWrites at h
    cases hu : availUpsert fid w.1 w.2 a with
    | some a2 =>
      rw [hu] at h
      rcases availUpsert_cases hu with ⟨hb, _⟩ | ⟨hb, hnone⟩
      · refine applyWrites_nodup ws a2 b h ?_
        subst hb
        have hmap : (List.map (fun r => r.date) (a.map (upd fid w.1 w.2))) =
            a.map fun r => r.date := by
          rw [List.map_map]
          exact List.map_congr_left fun r _ => upd_date fid w.1 w.2 r
        rw [hmap]
        exact hnd
      · refine applyWrites_nodup ws a2 b h ?_
        subst hb
        simp only [List.map_append, List.map_cons, List.map_nil]
        rw [List.nodup_append]
        refine ⟨hnd, List.nodup_singleton _, ?_⟩
        intro x hx
        simp only [List.mem_singleton]
        intro hxd
        rcases List.mem_map.mp hx with ⟨r, hr, hrd⟩
        have hany : a.any (fun r => r.date = w.1) = true :=
          List.any_eq_true.mpr ⟨r, hr, by simp [hrd, hxd, availNew]⟩
        simp_all
    | none =>
      rw [hu] at h
      cases h

theorem evWrites_congr {m1 m2 : Nat → Bool} (h : ∀ d, m1 d = m2 d)
    (bookings : List Booking) (v : AvailDefaults) (ds : List Nat) :
    evWrites m1 bookings v ds = evWrites m2 bookings v ds := by
  unfold evWrites
  congr 1
  apply List.filter_congr
  intro d _
  rw [h d]

theorem pevWrites_congr (ctx : RecCtx) {m1 m2 : Nat → Bool} (h : ∀ d, m1 d = m2 d)
    (ev : ParsedEvent) : pevWrites ctx m1 ev = pevWrites ctx m2 ev := by
  unfold pevWrites
  cases ev.start with
  | none => rfl
  | some s =>
    cases ev.stop with
    | none => rfl
    | some e =>
      dsimp only
      by_cases hpast : e < ctx.today
      · rw [if_pos hpast, if_pos hpast]
      · rw [if_neg hpast, if_neg hpast]
        by_cases hcan : evStatus ev ≠ "CANCELLED"
        · rw [if_pos hcan, if_pos hcan]
          exact evWrites_congr h ctx.bookings (evDefaults ctx ev) (blockDates s e)
        · rw [if_neg hcan, if_neg hcan]

theorem traceWrites_congr (ctx : RecCtx) {m1 m2 : Nat → Bool} (h : ∀ d, m1 d = m2 d)
    (parsed : List ParsedEvent) : traceWrites ctx m1 parsed = traceWrites ctx m2 parsed := by
  unfold traceWrites
  congr 1
  exact List.map_congr_left fun ev _ => pevWrites_congr ctx h ev

theorem blockFold_toOption {bookings : List Booking} {fid : Nat} {v : AvailDefaults} :
    ∀ (ds : List Nat) (avail : List Availability), ManualWF avail →
    (blockFold bookings fid v ds avail).toOption =
      applyWrites fid (evWrites (fun d => hasManual avail d) bookings v ds) avail
  | [], _, _ => rfl
  | d :: ds, avail, hWF => by
    unfold blockFold
    by_cases hg : (!hasManual avail d && !hasBooking bookings d) = true
    · rw [if_pos hg]
      have hfil : evWrites (fun d' => hasManual avail d') bookings v (d :: ds) =
          (d, v) :: evWrites (fun d' => hasManual avail d') bookings v ds := by
        unfold evWrites
        rw [List.filter_cons, if_pos (by simpa using hg)]
        rfl
      rw [hfil]
      simp only [applyWrites]
      cases hu : availUpsert fid d v avail with
      | some a2 =>
        have h1 := availUpsert_rel hWF hu
        rw [blockFold_toOption ds a2 (ManualWF_of_rel hWF h1.1)]
        rw [evWrites_congr (fun d' => hasManual_congr h1.1 d') bookings v ds]
      | none => rfl
    · rw [if_neg hg]
      have hfil : evWrites (fun d' => hasManual avail d') bookings v (d :: ds) =
          evWrites (fun d' => hasManual avail d') bookings v ds := by
        unfold evWrites
        rw [List.filter_cons, if_neg (by simpa using hg)]
      rw [hfil]
      exact blockFold_toOption ds avail hWF

theorem processEvent_spec (ctx : RecCtx) (ev : ParsedEvent) (st : RecState)
    (hWF : ManualWF st.avail) :
    match applyWrites ctx.fid (pevWrites ctx (fun d => hasManual st.avail d) ev) st.avail with
    | some a2 => ∃ c u, processEvent ctx ev st =
        .ok ⟨seenStep ctx.today ev st.seen, c, u, ledgerStep ctx ev st.events, a2⟩
    | none => ∃ er, processEvent ctx ev st = .error er := by
  cases hs : ev.start with
  | none =>
    have hpe : pevWrites ctx (fun d => hasManual st.avail d) ev = [] := by
      unfold pevWrites
      rw [hs]
    rw [hpe]
    refine ⟨st.created, st.updated, ?_⟩
    unfold processEvent seenStep ledgerStep
    rw [hs]
  | some s =>
    cases he : ev.stop with
    | none =>
      have hpe : pevWrites ctx (fun d => hasManual st.avail d) ev = [] := by
        unfold pevWrites
        rw [hs, he]
      rw [hpe]
      refine ⟨st.created, st.updated, ?_⟩
      unfold processEvent seenStep ledgerStep
      rw [hs, he]
    | some e =>
      by_cases hpast : e < ctx.today
      · have hpe : pevWrites ctx (fun d => hasManual st.avail d) ev = [] := by
          unfold pevWrites
          rw [hs, he]
          dsimp only
          rw [if_pos hpast]
        rw [hpe]
        refine ⟨st.created, st.updated, ?_⟩
        unfold processEvent seenStep ledgerStep
        rw [hs, he]
        dsimp only
        rw [if_pos hpast, if_pos hpast, if_pos hpast]
      · by_cases hcan : (ev.status.getD "CONFIRMED") = "CANCELLED"
        · have hpe : pevWrites ctx (fun d => hasManual st.avail d) ev = [] := by
            unfold pevWrites evStatus
            rw [hs, he]
            dsimp only
            rw [if_neg hpast, if_neg (by simp [hcan])]
          rw [hpe]
          refine ⟨if (eventUpsert ctx.now (evUid ev) s e (evSummary ev) (evStatus ev)
              st.events).2 then st.created + 1 else st.created,
            if (eventUpsert ctx.now (evUid ev) s e (evSummary ev) (evStatus ev)
              st.events).2 then st.updated else st.updated + 1, ?_⟩
          unfold processEvent seenStep ledgerStep evUid evSummary evStatus
          rw [hs, he]
          dsimp only
          rw [if_neg hpast, if_neg hpast, if_neg hpast, if_neg (by simp [hcan])]
        · have hpe : pevWrites ctx (fun d => hasManual st.avail d) ev =
              evWrites (fun d => hasManual st.avail d) ctx.bookings (evDefaults ctx ev)
                (blockDates s e) := by
            unfold pevWrites evStatus
            rw [hs, he]
            dsimp only
            rw [if_neg hpast, if_pos (by simpa using hcan)]
          rw [hpe]
          have hbo := @blockFold_toOption ctx.bookings ctx.fid
            (evDefaults ctx ev) (blockDates s e) st.avail hWF
          rw [← hbo]
          cases hb : blockFold ctx.bookings ctx.fid (evDefaults ctx ev) (blockDates s e)
              st.avail with
          | ok a2 =>
            refine ⟨if (eventUpsert ctx.now (evUid ev) s e (evSummary ev) (evStatus ev)
                st.events).2 then st.created + 1 else st.created,
              if (eventUpsert ctx.now (evUid ev) s e (evSummary ev) (evStatus ev)
                st.events).2 then st.updated else st.updated + 1, ?_⟩
            unfold processEvent seenStep ledgerStep evUid evSummary evStatus
            rw [hs, he]
            dsimp only
            rw [if_neg hpast, if_neg hpast, if_neg hpast, if_pos (by simpa using hcan)]
            have hb2 : blockLoop ctx.bookings ctx.fid
                ⟨ctx.fname ++ ": " ++ ev.summary.getD "External Booking", ev.uid.getD "",
                  (ctx.fid, ev.uid.getD "")⟩ s e st.avail = .ok a2 := hb
            rw [hb2]
          | error a2 =>
            refine ⟨((eventUpsert ctx.now (evUid ev) s e (evSummary ev) (evStatus ev)
                st.events).1, a2), ?_⟩
            unfold processEvent evUid evSummary evStatus
            rw [hs, he]
            dsimp only
            rw [if_neg hpast, if_pos (by simpa using hcan)]
            have hb2 : blockLoop ctx.bookings ctx.fid
                ⟨ctx.fname ++ ": " ++ ev.summary.getD "External Booking", ev.uid.getD "",
                  (ctx.fid, ev.uid.getD "")⟩ s e st.avail = .error a2 := hb
            rw [hb2]

theorem eventLoop_decompose (ctx : RecCtx) : ∀ (parsed : List ParsedEvent) (st : RecState),
    ManualWF st.avail →
    (match applyWrites ctx.fid (traceWrites ctx (fun d => hasManual st.avail d) parsed)
        st.avail with
     | some avF => ∃ c u, eventLoop ctx parsed st =
         .ok ⟨seenFold ctx.today parsed st.seen, c, u, ledgerFold ctx parsed st.events, avF⟩
     | none => ∃ er, eventLoop ctx parsed st = .error er)
  | [], st, _ => ⟨st.created, st.updated, rfl⟩
  | ev :: rest, st, hWF => by
    have htr : traceWrites ctx (fun d => hasManual st.avail d) (ev :: rest) =
        pevWrites ctx (fun d => hasManual st.avail d) ev ++
          traceWrites ctx (fun d => hasManual st.avail d) rest := by
      unfold traceWrites
      rw [List.map_cons, List.flatten_cons]
    rw [htr, applyWrites_append]
    have hspec := processEvent_spec ctx ev st hWF
    cases hpe : applyWrites ctx.fid (pevWrites ctx (fun d => hasManual st.avail d) ev)
        st.avail with
    | none =>
      rw [hpe] at hspec
      rcases hspec with ⟨er, hper⟩
      exact ⟨er, by unfold eventLoop; rw [hper]⟩
    | some a2 =>
      rw [hpe] at hspec
      rcases hspec with ⟨c1, u1, hok⟩
      have hrel : AvailRel st.avail a2 := applyWrites_rel _ _ _ hWF hpe
      have IH := eventLoop_decompose ctx rest
        ⟨seenStep ctx.today ev st.seen, c1, u1, ledgerStep ctx ev st.events, a2⟩
        (ManualWF_of_rel hWF hrel.1)
      rw [traceWrites_congr ctx (fun d => hasManual_congr hrel.1 d) rest] at IH
      dsimp only [Option.bind]
      cases hrw : applyWrites ctx.fid
          (traceWrites ctx (fun d => hasManual st.avail d) rest) a2 with
      | some avF =>
        rw [hrw] at IH
        rcases IH with ⟨c2, u2, hloop⟩
        refine ⟨c2, u2, ?_⟩
        show eventLoop ctx (ev :: rest) st = _
        unfold eventLoop
        rw [hok]
        exact hloop
      | none =>
        rw [hrw] at IH
        rcases IH with ⟨er, hloop⟩
        exact ⟨er, by unfold eventLoop; rw [hok]; exact hloop⟩

/-- Rowwise agreement of two availability tables: same dates and feed
references everywhere, and equal rows away from the dates in `D`. -/
def RowAgree (D : List Nat) (r1 r2 : Availability) : Prop :=
  r1.date = r2.date ∧ r1.ical_feed = r2.ical_feed ∧ (r1.date ∉ D → r1 = r2)

/-- Positionwise agreement of two availability tables except at the
dates in `D`. -/
def AgreeExcept (D : List Nat) (x y : List Availability) : Prop :=
  List.Forall₂ (RowAgree D) x y

theorem availWrite_congr {v : AvailDefaults} {r1 r2 : Availability}
    (hd : r1.date = r2.date) (hf : r1.ical_feed = r2.ical_feed) :
    availWrite v r1 = availWrite v r2 := by
  cases r1
  cases r2
  simp only [Availability.mk.injEq] at hd hf
  simp [availWrite, hd, hf]

theorem agree_any_datefeed {D : List Nat} {x y : List Availability}
    (h : AgreeExcept D x y) (d fid : Nat) :
    (x.any fun r => r.date = d && r.ical_feed = some fid) =
    (y.any fun r => r.date = d && r.ical_feed = some fid) := by
  induction h with
  | nil => rfl
  | cons h1 _ ih =>
    simp only [List.any_cons, h1.1, h1.2.1, ih]

theorem agree_any_date {D : List Nat} {x y : List Availability}
    (h : AgreeExcept D x y) (d : Nat) :
    (x.any fun r => r.date = d) = (y.any fun r => r.date = d) := by
  induction h with
  | nil => rfl
  | cons h1 _ ih =>
    simp only [List.any_cons, h1.1, ih]

theorem agree_dates {D : List Nat} {x y : List Availability} (h : AgreeExcept D x y) :
    (x.map fun r => r.date) = y.map fun r => r.date := by
  induction h with
  | nil => rfl
  | cons h1 _ ih =>
    simp only [List.map_cons, h1.1, ih]

theorem agree_upd {D : List Nat} {x y : List Availability} {fid d : Nat} {v : AvailDefaults}
    (h : AgreeExcept D x y) (hgood : ∀ r ∈ x, r.date = d → r.ical_feed = some fid) :
    AgreeExcept (D.filter fun d' => d' ≠ d) (x.map (upd fid d v)) (y.map (upd fid d v)) := by
  induction h with
  | nil => exact List.Forall₂.nil
  | @cons a b x' y' h1 _ ih =>
    rw [List.map_cons, List.map_cons]
    refine List.Forall₂.cons ?_
      (ih fun r hr hrd => hgood r (List.mem_cons_of_mem a hr) hrd)
    obtain ⟨hd, hf, heq⟩ := h1
    refine ⟨by rw [upd_date, upd_date, hd], by rw [upd_feed, upd_feed, hf], ?_⟩
    intro hnotin
    rw [upd_date] at hnotin
    by_cases had : a.date = d
    · have hfid := hgood a (List.mem_cons_self a x') had
      have ha2 : upd fid d v a = availWrite v a := by
        unfold upd
        rw [if_pos]
        simp [had, hfid]
      have hb2 : upd fid d v b = availWrite v b := by
        unfold upd
        rw [if_pos]
        simp [← hd, had, ← hf, hfid]
      rw [ha2, hb2]
      exact availWrite_congr hd hf
    · have hnD : a.date ∉ D := fun hIn => hnotin (List.mem_filter.mpr ⟨hIn, by simp [had]⟩)
      rw [heq hnD]

theorem agree_mono_of_ne {D : List Nat} {x y : List Availability} {d : Nat}
    (h : AgreeExcept D x y) (hx : ∀ r ∈ x, r.date ≠ d) :
    AgreeExcept (D.filter fun d' => d' ≠ d) x y := by
  induction h with
  | nil => exact List.Forall₂.nil
  | @cons a b x' y' h1 _ ih =>
    refine List.Forall₂.cons ?_ (ih fun r hr => hx r (List.mem_cons_of_mem a hr))
    obtain ⟨hd, hf, heq⟩ := h1
    refine ⟨hd, hf, ?_⟩
    intro hnotin
    have hnD : a.date ∉ D := fun hIn =>
      hnotin (List.mem_filter.mpr ⟨hIn, by simp [hx a (List.mem_cons_self a x')]⟩)
    exact heq hnD

theorem lastWrite_mem {ws : List (Nat × AvailDefaults)} {d : Nat} {v : AvailDefaults}
    (h : lastWrite ws d = some v) : d ∈ ws.map Prod.fst := by
  unfold lastWrite at h
  have hne : (ws.filter fun w => w.1 = d).map Prod.snd ≠ [] := by
    intro hc
    rw [hc] at h
    cases h
  have : ws.filter (fun w => w.1 = d) ≠ [] := by
    intro hc
    rw [hc] at hne
    exact hne rfl
  rcases List.exists_mem_of_ne_nil _ this with ⟨w, hw⟩
  have hmem := List.mem_filter.mp hw
  have : w.1 = d := by simpa using hmem.2
  rw [← this]
  exact List.mem_map_of_mem _ hmem.1

theorem applyWrites_agree {fid : Nat} : ∀ (ws : List (Nat × AvailDefaults)) (D : List Nat)
    (x y bx : List Availability), AgreeExcept D x y →
    (∀ d ∈ D, d ∈ ws.map Prod.fst) → (x.map fun r => r.date).Nodup →
    applyWrites fid ws x = some bx → applyWrites fid ws y = some bx
  | [], D, x, y, bx, hag, hD, _, h => by
    have hxy : List.Forall₂ (· = ·) x y := by
      refine hag.imp fun a b hab => ?_
      exact hab.2.2 fun hIn => by simpa using hD _ hIn
    have : x = y := by
      have := List.forall₂_eq_eq_eq (α := Availability)
      exact this ▸ hxy
    rw [← this]
    exact h
  | (d, v) :: ws, D, x, y, bx, hag, hD, hnd, h => by
    simp only [applyWrites] at h ⊢
    cases hu : availUpsert fid d v x with
    | none =>
      rw [hu] at h
      cases h
    | some x1 =>
      rw [hu] at h
      rcases availUpsert_cases hu with ⟨hb, hany⟩ | ⟨hb, hnone⟩
      · have hanyY : (y.any fun r => r.date = d && r.ical_feed = some fid) = true := by
          rw [← agree_any_datefeed hag]
          exact hany
        have huY : availUpsert fid d v y = some (y.map (upd fid d v)) := by
          unfold availUpsert
          rw [if_pos hanyY]
          rfl
        rw [huY]
        subst hb
        have hgood : ∀ r ∈ x, r.date = d → r.ical_feed = some fid := by
          intro r hr hrd
          rcases List.any_eq_true.mp hany with ⟨w, hw, hwc⟩
          simp only [Bool.and_eq_true, decide_eq_true_eq] at hwc
          have hrw : r = w := List.inj_on_of_nodup_map hnd hr hw (by rw [hrd, hwc.1])
          rw [hrw]
          exact hwc.2
        have hag1 := agree_upd (v := v) hag hgood
        refine applyWrites_agree ws _ _ _ bx hag1 ?_ ?_ h
        · intro d' hd'
          have hm := List.mem_filter.mp hd'
          have h2 := hD d' hm.1
          simp only [List.map_cons, List.mem_cons] at h2
          rcases h2 with h2 | h2
          · exact absurd h2 (by simpa using hm.2)
          · exact h2
        · have hmap : (List.map (fun r => r.date) (x.map (upd fid d v))) =
              x.map fun r => r.date := by
            rw [List.map_map]
            exact List.map_congr_left fun r _ => upd_date fid d v r
          rw [hmap]
          exact hnd
      · have hanyY : (y.any fun r => r.date = d) = false := by
          rw [← agree_any_date hag]
          exact hnone
        have hanyY2 : ¬ (y.any fun r => r.date = d && r.ical_feed = some fid) = true := by
          intro hc
          rcases List.any_eq_true.mp hc with ⟨w, hw, hwc⟩
          simp only [Bool.and_eq_true, decide_eq_true_eq] at hwc
          have : (y.any fun r => r.date = d) = true :=
            List.any_eq_true.mpr ⟨w, hw, by simp [hwc.1]⟩
          rw [hanyY] at this
          cases this
        have huY : availUpsert fid d v y = some (y ++ [availNew fid d v]) := by
          unfold availUpsert
          rw [if_neg hanyY2, if_neg (by simp [hanyY])]
        rw [huY]
        subst hb
        have hxne : ∀ r ∈ x, r.date ≠ d := by
          intro r hr hc
          have : (x.any fun r => r.date = d) = true :=
            List.any_eq_true.mpr ⟨r, hr, by simp [hc]⟩
          rw [hnone] at this
          cases this
        have hag0 := agree_mono_of_ne hag hxne
        have hag1 : AgreeExcept (D.filter fun d' => d' ≠ d)
            (x ++ [availNew fid d v]) (y ++ [availNew fid d v]) :=
          List.rel_append hag0 (List.Forall₂.cons ⟨rfl, rfl, fun _ => rfl⟩ List.Forall₂.nil)
        refine applyWrites_agree ws _ _ _ bx hag1 ?_ ?_ h
        · intro d' hd'
          have hm := List.mem_filter.mp hd'
          have h2 := hD d' hm.1
          simp only [List.map_cons, List.mem_cons] at h2
          rcases h2 with h2 | h2
          · exact absurd h2 (by simpa using hm.2)
          · exact h2
        · simp only [List.map_append, List.map_cons, List.map_nil]
          rw [List.nodup_append]
          refine ⟨hnd, List.nodup_singleton _, ?_⟩
          intro z hz
          simp only [List.mem_singleton]
          intro hzd
          rcases List.mem_map.mp hz with ⟨r, hr, hrd⟩
          exact hxne r hr (by rw [hrd, hzd]; rfl)

theorem availWrite_eq_self {v : AvailDefaults} {r : Availability}
    (h1 : r.is_available = false) (h2 : r.source = "ICAL") (h3 : r.note = v.note)
    (h4 : r.external_uid = v.external_uid) (h5 : r.ical_event = some v.ical_event) :
    availWrite v r = r := by
  cases r
  simp_all [availWrite]

theorem applyWrites_mem_of_notin {fid : Nat} : ∀ (ws : List (Nat × AvailDefaults))
    (x b : List Availability) (r : Availability), applyWrites fid ws x = some b →
    r ∈ x → (∀ w ∈ ws, r.date ≠ w.1) → r ∈ b
  | [], _, _, r, h, hr, _ => (Option.some.inj h) ▸ hr
  | w :: ws, x, b, r, h, hr, hne => by
    simp only [applyWrites] at h
    cases hu : availUpsert fid w.1 w.2 x with
    | none =>
      rw [hu] at h
      cases h
    | some x1 =>
      rw [hu] at h
      refine applyWrites_mem_of_notin ws x1 b r h ?_
        fun w' hw' => hne w' (List.mem_cons_of_mem _ hw')
      rcases availUpsert_cases hu with ⟨hb, _⟩ | ⟨hb, _⟩ <;> subst hb
      · have hid : upd fid w.1 w.2 r = r := upd_of_ne (hne w (List.mem_cons_self w ws))
        exact hid ▸ List.mem_map_of_mem _ hr
      · exact List.mem_append_left _ hr

theorem applyWrites_last {fid : Nat} : ∀ (ws : List (Nat × AvailDefaults))
    (x b : List Availability), applyWrites fid ws x = some b →
    ∀ (d : Nat) (v : AvailDefaults), lastWrite ws d = some v →
    ∃ r ∈ b, r.date = d ∧ r.ical_feed = some fid ∧ availWrite v r = r
  | [], _, _, _, d, v, hlw => absurd hlw (by simp [lastWrite])
  | (d', v') :: ws, x, b, h, d, v, hlw => by
    simp only [applyWrites] at h
    cases hu : availUpsert fid d' v' x with
    | none =>
      rw [hu] at h
      cases h
    | some x1 =>
      rw [hu] at h
      by_cases hsome : (lastWrite ws d).isSome
      · rw [lastWrite_cons_of_mem hsome] at hlw
        exact applyWrites_last ws x1 b h d v hlw
      · have hwsnone : lastWrite ws d = none := by
          cases hlw2 : lastWrite ws d with
          | none => rfl
          | some z =>
            rw [hlw2] at hsome
            simp at hsome
        by_cases hdd : d' = d
        · subst hdd
          rw [lastWrite_cons_self rfl hwsnone] at hlw
          have hv : v' = v := Option.some.inj hlw
          subst hv
          rcases availUpsert_written hu with ⟨r, hr, hf1, hf2, hf3, hf4, hf5, hf6, hf7⟩
          have hfix : availWrite v' r = r := availWrite_eq_self hf2 hf3 hf4 hf5 hf7
          refine ⟨r, applyWrites_mem_of_notin ws x1 b r h hr ?_, hf1, hf6, hfix⟩
          intro w hw hc
          have hws := lastWrite_isSome_of_mem hw
          rw [← hc, hf1] at hws
          rw [hwsnone] at hws
          simp at hws
        · rw [lastWrite_cons_of_ne (by simpa using hdd), hwsnone] at hlw
          cases hlw

theorem applyWrites_fix {fid : Nat} : ∀ (ws : List (Nat × AvailDefaults))
    (z : List Availability), (z.map fun r => r.date).Nodup →
    (∀ w ∈ ws, ∃ r ∈ z, r.date = w.1 ∧ r.ical_feed = some fid) →
    (∀ (d : Nat) (v : AvailDefaults), lastWrite ws d = some v →
      ∀ r ∈ z, r.date = d → availWrite v r = r) →
    applyWrites fid ws z = some z
  | [], _, _, _, _ => rfl
  | (d, v) :: ws, z, hnd, hrows, hlast => by
    simp only [applyWrites]
    obtain ⟨r0, hr0, hr0d, hr0f⟩ := hrows (d, v) (List.mem_cons_self _ ws)
    have hany : (z.any fun r => r.date = d && r.ical_feed = some fid) = true :=
      List.any_eq_true.mpr ⟨r0, hr0, by simp [hr0d, hr0f]⟩
    have hu : availUpsert fid d v z = some (z.map (upd fid d v)) := by
      unfold availUpsert
      rw [if_pos hany]
      rfl
    rw [hu]
    cases hlw : lastWrite ws d with
    | none =>
      have hlw2 : lastWrite ((d, v) :: ws) d = some v := lastWrite_cons_self rfl hlw
      have hzid : z.map (upd fid d v) = z := by
        have hall : ∀ r ∈ z, upd fid d v r = r := by
          intro r hr
          by_cases hrd : r.date = d
          · have hw := hlast d v hlw2 r hr hrd
            unfold upd
            split
            · exact hw
            · rfl
          · exact upd_of_ne hrd
        calc z.map (upd fid d v) = z.map id := List.map_congr_left fun r hr => hall r hr
          _ = z := List.map_id z
      rw [hzid]
      refine applyWrites_fix ws z hnd (fun w hw => hrows w (List.mem_cons_of_mem _ hw)) ?_
      intro d' v' hlw' r hr hrd
      by_cases hdd : d' = d
      · subst hdd
        rw [hlw] at hlw'
        cases hlw'
      · refine hlast d' v' ?_ r hr hrd
        rw [lastWrite_cons_of_ne (by simpa using fun hc : d = d' => hdd hc.symm)]
        exact hlw'
    | some v2 =>
      have IH : applyWrites fid ws z = some z := by
        refine applyWrites_fix ws z hnd (fun w hw => hrows w (List.mem_cons_of_mem _ hw)) ?_
        intro d' v' hlw' r hr hrd
        by_cases hdd : d' = d
        · refine hlast d' v' ?_ r hr hrd
          rw [hdd, lastWrite_cons_of_mem (by rw [hlw]; rfl), ← hdd]
          exact hlw'
        · refine hlast d' v' ?_ r hr hrd
          rw [lastWrite_cons_of_ne (by simpa using fun hc : d = d' => hdd hc.symm)]
          exact hlw'
      have hag : AgreeExcept [d] z (z.map (upd fid d v)) := by
        rw [AgreeExcept, List.forall₂_map_right_iff]
        rw [List.forall₂_same]
        intro r hr
        refine ⟨(upd_date fid d v r).symm, (upd_feed fid d v r).symm, ?_⟩
        intro hne
        have : r.date ≠ d := by simpa using hne
        exact (upd_of_ne this).symm
      have hdmem : ∀ d' ∈ [d], d' ∈ ws.map Prod.fst := by
        intro d' hd'
        rw [List.mem_singleton.mp hd']
        exact lastWrite_mem hlw
      exact applyWrites_agree ws [d] z (z.map (upd fid d v)) z hag hdmem hnd IH

/-- The values the upsert writes into the ledger row of a kept event
(`first_seen_at` of a pre-existing row is untouched, so it is not part
of the written form). -/
def WrittenRow (now : Nat) (ev : ParsedEvent) (r : ICalEvent) : Prop :=
  match ev.start, ev.stop with
  | some s, some e => r.uid = evUid ev ∧ r.dtstart = s ∧ r.dtend = e ∧
      r.summary = evSummary ev ∧ r.status = evStatus ev ∧ r.missing_since = none ∧
      r.is_deleted = false ∧ r.last_seen_at = now
  | _, _ => False

theorem keptEv_elim {today : Nat} {ev : ParsedEvent} (h : keptEv today ev = true) :
    ∃ s e, ev.start = some s ∧ ev.stop = some e ∧ ¬ e < today := by
  unfold keptEv at h
  cases hs : ev.start with
  | none => rw [hs] at h; cases h
  | some s =>
    cases he : ev.stop with
    | none => rw [hs, he] at h; cases h
    | some e =>
      rw [hs, he] at h
      exact ⟨s, e, rfl, rfl, by simpa using h⟩

theorem keptUids_cons (today : Nat) (ev : ParsedEvent) (rest : List ParsedEvent) :
    keptUids today (ev :: rest) =
      if keptEv today ev = true then evUid ev :: keptUids today rest
      else keptUids today rest := by
  unfold keptUids
  rw [List.filter_cons]
  by_cases h : keptEv today ev = true
  · rw [if_pos h, if_pos h, List.map_cons]
  · rw [if_neg h, if_neg h]

theorem eventUpsert_uidmap (now : Nat) (uid : String) (s e : Nat) (S X : String)
    (evs : List ICalEvent) :
    ((eventUpsert now uid s e S X evs).1.map fun x => x.uid) = evs.map (fun x => x.uid) ∨
    ((eventUpsert now uid s e S X evs).1.map fun x => x.uid) =
      evs.map (fun x => x.uid) ++ [uid] := by
  unfold eventUpsert
  split
  · left
    simp only [List.map_map]
    apply List.map_congr_left
    intro r _
    by_cases hr : r.uid = uid <;> simp [hr]
  · right
    simp

theorem eventUpsert_nodup {now : Nat} {uid : String} {s e : Nat} {S X : String}
    {evs : List ICalEvent} (hnd : (evs.map fun x => x.uid).Nodup) :
    ((eventUpsert now uid s e S X evs).1.map fun x => x.uid).Nodup := by
  rcases eventUpsert_uidmap now uid s e S X evs with h | h
  · rw [h]; exact hnd
  · rw [h]
    by_cases hin : (evs.any fun x => x.uid = uid) = true
    · exfalso
      unfold eventUpsert at h
      rw [if_pos hin] at h
      simp only [List.map_map] at h
      have hlen := congrArg List.length h
      simp at hlen
    · rw [List.nodup_append]
      refine ⟨hnd, List.nodup_singleton _, ?_⟩
      intro x hx
      simp only [List.mem_singleton]
      intro hxu
      rcases List.mem_map.mp hx with ⟨r, hr, hru⟩
      exact hin (List.any_eq_true.mpr ⟨r, hr, by simp [hru, hxu]⟩)

theorem eventUpsert_written (now : Nat) (uid : String) (s e : Nat) (S X : String)
    (evs : List ICalEvent) :
    ∃ r ∈ (eventUpsert now uid s e S X evs).1, r.uid = uid ∧ r.dtstart = s ∧ r.dtend = e ∧
      r.summary = S ∧ r.status = X ∧ r.missing_since = none ∧ r.is_deleted = false ∧
      r.last_seen_at = now := by
  unfold eventUpsert
  split
  · rename_i hany
    rcases List.any_eq_true.mp hany with ⟨w, hw, hwu⟩
    simp only [decide_eq_true_eq] at hwu
    refine ⟨{ w with dtstart := s, dtend := e, summary := S, status := X,
                     missing_since := none, is_deleted := false, last_seen_at := now }, ?_,
      hwu, rfl, rfl, rfl, rfl, rfl, rfl, rfl⟩
    have hmem := List.mem_map_of_mem (fun x : ICalEvent => if x.uid = uid then
        { x with dtstart := s, dtend := e, summary := S, status := X,
                 missing_since := none, is_deleted := false, last_seen_at := now }
      else x) hw
    dsimp only at hmem
    rw [if_pos hwu] at hmem
    exact hmem
  · refine ⟨{ uid := uid, dtstart := s, dtend := e, summary := S, status := X,
               first_seen_at := now, last_seen_at := now, missing_since := none,
               is_deleted := false },
      List.mem_append_right _ (List.mem_singleton_self _),
      rfl, rfl, rfl, rfl, rfl, rfl, rfl, rfl⟩

theorem eventUpsert_id {now : Nat} {uid : String} {s e : Nat} {S X : String}
    {evs : List ICalEvent} (hnd : (evs.map fun x => x.uid).Nodup) (r : ICalEvent)
    (hr : r ∈ evs) (hu : r.uid = uid) (h1 : r.dtstart = s) (h2 : r.dtend = e)
    (h3 : r.summary = S) (h4 : r.status = X) (h5 : r.missing_since = none)
    (h6 : r.is_deleted = false) (h7 : r.last_seen_at = now) :
    eventUpsert now uid s e S X evs = (evs, false) := by
  unfold eventUpsert
  rw [if_pos (List.any_eq_true.mpr ⟨r, hr, by simp [hu]⟩)]
  have hmap : (evs.map fun x => if x.uid = uid then
      { x with dtstart := s, dtend := e, summary := S, status := X,
               missing_since := none, is_deleted := false, last_seen_at := now }
      else x) = evs := by
    have hall : ∀ x ∈ evs, (if x.uid = uid then
        { x with dtstart := s, dtend := e, summary := S, status := X,
                 missing_since := none, is_deleted := false, last_seen_at := now }
        else x) = x := by
      intro x hx
      by_cases hxu : x.uid = uid
      · have hxr : x = r := List.inj_on_of_nodup_map hnd hx hr (by rw [hxu, hu])
        subst hxr
        rw [if_pos hxu]
        cases x
        simp_all
      · rw [if_neg hxu]
    calc (evs.map fun x => if x.uid = uid then
          { x with dtstart := s, dtend := e, summary := S, status := X,
                   missing_since := none, is_deleted := false, last_seen_at := now }
          else x) = evs.map id := List.map_congr_left fun x hx => hall x hx
      _ = evs := List.map_id evs
  rw [hmap]

theorem contains_of_mem {l : List String} {u : String} (h : u ∈ l) : l.contains u = true := by
  simpa using h

theorem mem_of_contains {l : List String} {u : String} (h : l.contains u = true) : u ∈ l := by
  simpa using h

theorem seenAdd_mem_self (seen : List String) (u : String) : u ∈ seenAdd seen u := by
  unfold seenAdd
  split
  · rename_i h
    exact mem_of_contains h
  · exact List.mem_append_right _ (List.mem_singleton_self u)

theorem seenAdd_mem_of_mem {seen : List String} {u : String} (h : u ∈ seen) (v : String) :
    u ∈ seenAdd seen v := by
  unfold seenAdd
  split
  · exact h
  · exact List.mem_append_left _ h

theorem seenStep_mem_of_mem (today : Nat) (ev : ParsedEvent) {seen : List String} {u : String}
    (h : u ∈ seen) : u ∈ seenStep today ev seen := by
  unfold seenStep
  cases ev.start with
  | none => exact h
  | some s =>
    cases ev.stop with
    | none => exact h
    | some e =>
      dsimp only
      split
      · exact h
      · exact seenAdd_mem_of_mem h _

theorem seenFold_mem_of_mem (today : Nat) : ∀ (parsed : List ParsedEvent)
    {seen : List String} {u : String}, u ∈ seen → u ∈ seenFold today parsed seen
  | [], _, _, h => h
  | ev :: rest, _, _, h =>
    seenFold_mem_of_mem today rest (seenStep_mem_of_mem today ev h)

theorem kept_uid_seen (today : Nat) : ∀ (parsed : List ParsedEvent) (seen : List String)
    (ev : ParsedEvent), ev ∈ parsed → keptEv today ev = true →
    evUid ev ∈ seenFold today parsed seen
  | [], _, ev, hev, _ => absurd hev (by simp)
  | ev0 :: rest, seen, ev, hev, hkept => by
    rcases List.mem_cons.mp hev with heq | hmem
    · subst heq
      obtain ⟨s, e, hs, he, hpast⟩ := keptEv_elim hkept
      have hstep : seenStep today ev seen = seenAdd seen (evUid ev) := by
        unfold seenStep
        rw [hs, he]
        dsimp only
        rw [if_neg hpast]
      show evUid ev ∈ seenFold today rest (seenStep today ev seen)
      rw [hstep]
      exact seenFold_mem_of_mem today rest (seenAdd_mem_self seen (evUid ev))
    · exact kept_uid_seen today rest _ ev hmem hkept

theorem evWrites_snd {man : Nat → Bool} {bookings : List Booking} {v : AvailDefaults}
    {ds : List Nat} {w : Nat × AvailDefaults} (h : w ∈ evWrites man bookings v ds) :
    w.2 = v := by
  unfold evWrites at h
  rcases List.mem_map.mp h with ⟨d, _, rfl⟩
  rfl

theorem pevWrites_mem {ctx : RecCtx} {man : Nat → Bool} {ev : ParsedEvent}
    {w : Nat × AvailDefaults} (h : w ∈ pevWrites ctx man ev) :
    keptEv ctx.today ev = true ∧ w.2 = evDefaults ctx ev := by
  unfold pevWrites at h
  cases hs : ev.start with
  | none =>
    rw [hs] at h
    cases h
  | some s =>
    cases he : ev.stop with
    | none =>
      rw [hs, he] at h
      cases h
    | some e =>
      rw [hs, he] at h
      dsimp only at h
      by_cases hpast : e < ctx.today
      · rw [if_pos hpast] at h
        cases h
      · rw [if_neg hpast] at h
        by_cases hcan : evStatus ev ≠ "CANCELLED"
        · rw [if_pos hcan] at h
          refine ⟨?_, evWrites_snd h⟩
          unfold keptEv
          rw [hs, he]
          simpa using hpast
        · rw [if_neg hcan] at h
          cases h

theorem traceWrites_key {ctx : RecCtx} {man : Nat → Bool} {parsed : List ParsedEvent}
    {w : Nat × AvailDefaults} (h : w ∈ traceWrites ctx man parsed) :
    ∃ ev ∈ parsed, keptEv ctx.today ev = true ∧ w.2 = evDefaults ctx ev := by
  unfold traceWrites at h
  rcases List.mem_flatten.mp h with ⟨l, hl, hwl⟩
  rcases List.mem_map.mp hl with ⟨ev, hev, rfl⟩
  obtain ⟨h1, h2⟩ := pevWrites_mem hwl
  exact ⟨ev, hev, h1, h2⟩

theorem lastWrite_pair_mem {ws : List (Nat × AvailDefaults)} {d : Nat} {v : AvailDefaults}
    (h : lastWrite ws d = some v) : (d, v) ∈ ws := by
  unfold lastWrite at h
  have hv : v ∈ (ws.filter fun w => w.1 = d).map Prod.snd := by
    rcases List.mem_getLast?_eq_getLast (show v ∈ List.getLast? _ from h) with ⟨hne, rfl⟩
    exact List.getLast_mem hne
  rcases List.mem_map.mp hv with ⟨w, hw, hwv⟩
  have hmem := List.mem_filter.mp hw
  have hwd : w.1 = d := by simpa using hmem.2
  have : w = (d, v) := by
    cases w
    simp_all
  rw [← this]
  exact hmem.1

/-! ### The ledger side of the second pass -/

theorem eventUpsert_frame {now : Nat} {uid : String} {s e : Nat} {S X : String}
    {evs : List ICalEvent} {r : ICalEvent} (hr : r ∈ evs) (hu : r.uid ≠ uid) :
    r ∈ (eventUpsert now uid s e S X evs).1 := by
  unfold eventUpsert
  split
  · have hmem := List.mem_map_of_mem (fun x : ICalEvent => if x.uid = uid then
        { x with dtstart := s, dtend := e, summary := S, status := X,
                 missing_since := none, is_deleted := false, last_seen_at := now }
      else x) hr
    dsimp only at hmem
    rw [if_neg hu] at hmem
    exact hmem
  · exact List.mem_append_left _ hr

theorem ledgerStep_frame (ctx : RecCtx) (ev : ParsedEvent) {evs : List ICalEvent}
    {r : ICalEvent} (hr : r ∈ evs) (hu : keptEv ctx.today ev = true → r.uid ≠ evUid ev) :
    r ∈ ledgerStep ctx ev evs := by
  unfold ledgerStep
  cases hs : ev.start with
  | none => exact hr
  | some s =>
    cases he : ev.stop with
    | none => exact hr
    | some e =>
      dsimp only
      split
      · exact hr
      · rename_i hpast
        refine eventUpsert_frame hr (hu ?_)
        unfold keptEv
        rw [hs, he]
        simpa using hpast

theorem ledgerFold_frame (ctx : RecCtx) : ∀ (parsed : List ParsedEvent) (evs : List ICalEvent)
    (r : ICalEvent), r ∈ evs → r.uid ∉ keptUids ctx.today parsed →
    r ∈ ledgerFold ctx parsed evs
  | [], _, _, hr, _ => hr
  | ev :: rest, evs, r, hr, hk => by
    have hk2 : r.uid ∉ keptUids ctx.today rest := by
      intro hc
      apply hk
      rw [keptUids_cons]
      split
      · exact List.mem_cons_of_mem _ hc
      · exact hc
    have hstep : r ∈ ledgerStep ctx ev evs := by
      refine ledgerStep_frame ctx ev hr fun hkept hc => ?_
      apply hk
      rw [keptUids_cons, if_pos hkept, hc]
      exact List.mem_cons_self _ _
    exact ledgerFold_frame ctx rest _ r hstep hk2

theorem ledgerStep_nodup (ctx : RecCtx) (ev : ParsedEvent) {evs : List ICalEvent}
    (h : (evs.map fun x => x.uid).Nodup) :
    ((ledgerStep ctx ev evs).map fun x => x.uid).Nodup := by
  unfold ledgerStep
  cases hs : ev.start with
  | none => exact h
  | some s =>
    cases he : ev.stop with
    | none => exact h
    | some e =>
      dsimp only
      split
      · exact h
      · exact eventUpsert_nodup h

theorem ledgerFold_nodup (ctx : RecCtx) : ∀ (parsed : List ParsedEvent) (evs : List ICalEvent),
    (evs.map fun x => x.uid).Nodup → ((ledgerFold ctx parsed evs).map fun x => x.uid).Nodup
  | [], _, h => h
  | ev :: rest, _, h => ledgerFold_nodup ctx rest _ (ledgerStep_nodup ctx ev h)

theorem ledgerFold_written (ctx : RecCtx) : ∀ (parsed : List ParsedEvent)
    (evs : List ICalEvent), (keptUids ctx.today parsed).Nodup →
    ∀ ev ∈ parsed, keptEv ctx.today ev = true →
    ∃ r ∈ ledgerFold ctx parsed evs, WrittenRow ctx.now ev r
  | [], _, _, ev, hev, _ => absurd hev (by simp)
  | ev0 :: rest, evs, hnd, ev, hev, hkept => by
    have hndr : (keptUids ctx.today rest).Nodup := by
      rw [keptUids_cons] at hnd
      revert hnd
      split
      · exact fun h => h.of_cons
      · exact id
    rcases List.mem_cons.mp hev with heq | hmem
    · subst heq
      obtain ⟨s, e, hs, he, hpast⟩ := keptEv_elim hkept
      have hstep : ledgerStep ctx ev evs =
          (eventUpsert ctx.now (evUid ev) s e (evSummary ev) (evStatus ev) evs).1 := by
        unfold ledgerStep
        rw [hs, he]
        dsimp only
        rw [if_neg hpast]
      obtain ⟨r, hrmem, h1, h2, h3, h4, h5, h6, h7, h8⟩ :=
        eventUpsert_written ctx.now (evUid ev) s e (evSummary ev) (evStatus ev) evs
      refine ⟨r, ?_, ?_⟩
      · show r ∈ ledgerFold ctx rest (ledgerStep ctx ev evs)
        refine ledgerFold_frame ctx rest _ r (by rw [hstep]; exact hrmem) ?_
        rw [h1]
        rw [keptUids_cons, if_pos hkept] at hnd
        exact (List.nodup_cons.mp hnd).1
      · simp only [WrittenRow, hs, he]
        exact ⟨h1, h2, h3, h4, h5, h6, h7, h8⟩
    · obtain ⟨r, hrmem, hW⟩ := ledgerFold_written ctx rest (ledgerStep ctx ev0 evs)
        hndr ev hmem hkept
      exact ⟨r, hrmem, hW⟩

theorem WrittenRow_elim {now : Nat} {ev : ParsedEvent} {r : ICalEvent} {s e : Nat}
    (hs : ev.start = some s) (he : ev.stop = some e) (h : WrittenRow now ev r) :
    r.uid = evUid ev ∧ r.dtstart = s ∧ r.dtend = e ∧ r.summary = evSummary ev ∧
    r.status = evStatus ev ∧ r.missing_since = none ∧ r.is_deleted = false ∧
    r.last_seen_at = now := by
  simp only [WrittenRow, hs, he] at h
  exact h

theorem ledgerStep_id_of_not_kept (ctx : RecCtx) (ev : ParsedEvent) (evs : List ICalEvent)
    (h : ¬ keptEv ctx.today ev = true) : ledgerStep ctx ev evs = evs := by
  unfold ledgerStep
  cases hs : ev.start with
  | none => rfl
  | some s =>
    cases he : ev.stop with
    | none => rfl
    | some e =>
      dsimp only
      have hp : e < ctx.today := by
        unfold keptEv at h
        rw [hs, he] at h
        dsimp only at h
        simpa using h
      rw [if_pos hp]

theorem ledgerFold_replay (ctx : RecCtx) : ∀ (parsed : List ParsedEvent) (z : List ICalEvent),
    (z.map fun x => x.uid).Nodup →
    (∀ ev ∈ parsed, keptEv ctx.today ev = true → ∃ r ∈ z, WrittenRow ctx.now ev r) →
    ledgerFold ctx parsed z = z
  | [], _, _, _ => rfl
  | ev :: rest, z, hnd, hw => by
    have hstep : ledgerStep ctx ev z = z := by
      by_cases hkept : keptEv ctx.today ev = true
      · obtain ⟨r, hr, hWr⟩ := hw ev (List.mem_cons_self ev rest) hkept
        obtain ⟨s, e, hs, he, hpast⟩ := keptEv_elim hkept
        obtain ⟨h1, h2, h3, h4, h5, h6, h7, h8⟩ := WrittenRow_elim hs he hWr
        unfold ledgerStep
        rw [hs, he]
        dsimp only
        rw [if_neg hpast, eventUpsert_id hnd r hr h1 h2 h3 h4 h5 h6 h7 h8]
      · exact ledgerStep_id_of_not_kept ctx ev z hkept
    show ledgerFold ctx rest (ledgerStep ctx ev z) = z
    rw [hstep]
    exact ledgerFold_replay ctx rest z hnd fun e2 he2 hk2 =>
      hw e2 (List.mem_cons_of_mem _ he2) hk2

/-! ### Stability of the missing / reset phases on the post-state -/

/-- The per-row effect of the reappeared-event reset. -/
def resetRow (seen : List String) (e : ICalEvent) : ICalEvent :=
  if seen.contains e.uid && e.missing_since.isSome then { e with missing_since := none }
  else e

theorem resetPhase_eq (seen : List String) (evs : List ICalEvent) :
    resetPhase seen evs = evs.map (resetRow seen) := rfl

theorem missTouch_uid (seen : List String) (now : Nat) (e : ICalEvent) :
    (missTouch seen now e).uid = e.uid := by
  unfold missTouch
  split
  · split
    · rfl
    · split <;> rfl
  · rfl

theorem resetRow_uid (seen : List String) (e : ICalEvent) :
    (resetRow seen e).uid = e.uid := by
  unfold resetRow
  split <;> rfl

theorem missTouch_of_contains {seen : List String} {now : Nat} {e : ICalEvent}
    (h : seen.contains e.uid = true) : missTouch seen now e = e := by
  have hm : e.uid ∈ seen := mem_of_contains h
  unfold missTouch
  rw [if_neg]
  simp [hm]

theorem resetRow_of_none {seen : List String} {e : ICalEvent}
    (h : e.missing_since = none) : resetRow seen e = e := by
  unfold resetRow
  rw [if_neg]
  simp [h]

theorem passUids (seen : List String) (now : Nat) (evs : List ICalEvent) :
    ((resetPhase seen (evs.map (missTouch seen now))).map fun x => x.uid) =
      evs.map fun x => x.uid := by
  simp only [resetPhase_eq, List.map_map]
  refine List.map_congr_left fun e _ => ?_
  show (resetRow seen (missTouch seen now e)).uid = e.uid
  rw [resetRow_uid, missTouch_uid]

/-- One ledger row, after a missing-phase touch and a reset, is a fixed
point of both phases and is never expired (relative to the same seen set
and the same clock). -/
theorem passRow_stable (seen : List String) (now : Nat) (y : ICalEvent) :
    missTouch seen now (resetRow seen (missTouch seen now y)) =
      resetRow seen (missTouch seen now y) ∧
    isExpired seen now (resetRow seen (missTouch seen now y)) = false ∧
    resetRow seen (resetRow seen (missTouch seen now y)) =
      resetRow seen (missTouch seen now y) := by
  by_cases hd : y.is_deleted = true
  · have hmt : missTouch seen now y = y := by
      unfold missTouch
      rw [if_neg]
      simp [hd]
    rw [hmt]
    by_cases hg : (seen.contains y.uid && y.missing_since.isSome) = true
    · have hr : resetRow seen y = { y with missing_since := none } := by
        unfold resetRow
        rw [if_pos hg]
      rw [hr]
      refine ⟨?_, ?_, ?_⟩
      · unfold missTouch
        rw [if_neg]
        simp [hd]
      · unfold isExpired
        simp [hd]
      · unfold resetRow
        rw [if_neg]
        simp
    · have hr : resetRow seen y = y := by
        unfold resetRow
        rw [if_neg hg]
      rw [hr]
      refine ⟨hmt, ?_, hr⟩
      unfold isExpired
      simp [hd]
  · have hdb : y.is_deleted = false := by simpa using hd
    by_cases hc : seen.contains y.uid = true
    · have hcm : y.uid ∈ seen := mem_of_contains hc
      have hmt : missTouch seen now y = y := missTouch_of_contains hc
      rw [hmt]
      by_cases hg : (seen.contains y.uid && y.missing_since.isSome) = true
      · have hr : resetRow seen y = { y with missing_since := none } := by
          unfold resetRow
          rw [if_pos hg]
        rw [hr]
        refine ⟨?_, ?_, ?_⟩
        · exact missTouch_of_contains hc
        · unfold isExpired
          simp [hcm]
        · unfold resetRow
          rw [if_neg]
          simp
      · have hr : resetRow seen y = y := by
          unfold resetRow
          rw [if_neg hg]
        rw [hr]
        refine ⟨hmt, ?_, hr⟩
        unfold isExpired
        simp [hcm]
    · have hcb : seen.contains y.uid = false := by
        cases h2 : seen.contains y.uid
        · rfl
        · exact absurd h2 hc
      have hnm : y.uid ∉ seen := by
        intro hmm
        have h3 := contains_of_mem hmm
        rw [h3] at hcb
        cases hcb
      cases hm : y.missing_since with
      | none =>
        have hmt : missTouch seen now y = { y with missing_since := some now } := by
          unfold missTouch
          rw [if_pos (by simp [hdb, hnm]), hm]
        have hr : resetRow seen { y with missing_since := some now } =
            { y with missing_since := some now } := by
          unfold resetRow
          rw [if_neg]
          simp [hnm]
        rw [hmt, hr]
        refine ⟨?_, ?_, hr⟩
        · unfold missTouch
          rw [if_pos (by simp [hdb, hnm])]
          dsimp only
          rw [if_neg (by omega : ¬ 2880 < now - now)]
        · unfold isExpired
          simp [hdb, hnm, Nat.sub_self]
      | some t =>
        by_cases hgt : 2880 < now - t
        · have hmt : missTouch seen now y = { y with is_deleted := true } := by
            unfold missTouch
            rw [if_pos (by simp [hdb, hnm]), hm]
            dsimp only
            rw [if_pos hgt]
          have hr : resetRow seen { y with is_deleted := true } =
              { y with is_deleted := true } := by
            unfold resetRow
            rw [if_neg]
            simp [hnm]
          rw [hmt, hr]
          refine ⟨?_, ?_, hr⟩
          · unfold missTouch
            rw [if_neg]
            simp
          · unfold isExpired
            simp
        · have hmt : missTouch seen now y = y := by
            unfold missTouch
            rw [if_pos (by simp [hdb, hnm]), hm]
            dsimp only
            rw [if_neg hgt]
          have hr : resetRow seen y = y := by
            unfold resetRow
            rw [if_neg]
            simp [hnm]
          rw [hmt, hr]
          refine ⟨hmt, ?_, hr⟩
          unfold isExpired
          simp [hdb, hnm, hm, hgt]

theorem missMap_stable (seen : List String) (now : Nat) (evs : List ICalEvent) :
    (resetPhase seen (evs.map (missTouch seen now))).map (missTouch seen now) =
      resetPhase seen (evs.map (missTouch seen now)) := by
  simp only [resetPhase_eq, List.map_map]
  refine List.map_congr_left fun y _ => ?_
  show missTouch seen now (resetRow seen (missTouch seen now y)) =
    resetRow seen (missTouch seen now y)
  exact (passRow_stable seen now y).1

theorem expired_stable (seen : List String) (now : Nat) (evs : List ICalEvent) :
    ∀ x ∈ resetPhase seen (evs.map (missTouch seen now)), isExpired seen now x = false := by
  intro x hx
  rw [resetPhase_eq] at hx
  rcases List.mem_map.mp hx with ⟨z, hz, rfl⟩
  rcases List.mem_map.mp hz with ⟨y, _, rfl⟩
  exact (passRow_stable seen now y).2.1

theorem reset_stable (seen : List String) (now : Nat) (evs : List ICalEvent) :
    resetPhase seen (resetPhase seen (evs.map (missTouch seen now))) =
      resetPhase seen (evs.map (missTouch seen now)) := by
  simp only [resetPhase_eq, List.map_map]
  refine List.map_congr_left fun y _ => ?_
  show resetRow seen (resetRow seen (missTouch seen now y)) =
    resetRow seen (missTouch seen now y)
  exact (passRow_stable seen now y).2.2

/-- A missing phase over a ledger whose rows are all fixed by the touch
and none of which is expired changes nothing and removes nothing. -/
theorem missingPhase_noop (fid : Nat) (seen : List String) (now : Nat)
    (evs1 : List ICalEvent) (avail1 : List Availability)
    (hmt : evs1.map (missTouch seen now) = evs1)
    (hexp : ∀ x ∈ evs1, isExpired seen now x = false) :
    missingPhase fid seen now evs1 avail1 = (evs1, avail1, 0) := by
  unfold missingPhase
  rw [hmt]
  have h2 : (avail1.filter fun r =>
      !(evs1.any fun e => isExpired seen now e && r.ical_event = some (fid, e.uid))) =
      avail1 := by
    apply List.filter_eq_self.mpr
    intro r _
    rw [Bool.not_eq_true']
    apply List.any_eq_false.mpr
    intro e he
    simp [hexp e he]
  have h3 : evs1.filter (isExpired seen now) = [] := by
    rw [List.filter_eq_nil_iff]
    intro a ha
    simp [hexp a ha]
  rw [h2, h3]
  rfl

/-- An availability row referencing a seen event survives the
missing-phase filter. -/
theorem avail_filter_keep {fid : Nat} {seen : List String} {now : Nat}
    {ledger : List ICalEvent} {r : Availability} {uid0 : String}
    (hie : r.ical_event = some (fid, uid0)) (hmem : uid0 ∈ seen) :
    (!(ledger.any fun e => isExpired seen now e &&
        r.ical_event = some (fid, e.uid))) = true := by
  rw [Bool.not_eq_true']
  apply List.any_eq_false.mpr
  intro e he
  by_cases hc : r.ical_event = some (fid, e.uid)
  · have heu : e.uid = uid0 := by
      rw [hie] at hc
      exact (congrArg Prod.snd (Option.some.inj hc)).symm
    have hcont : e.uid ∈ seen := by
      rw [heu]
      exact hmem
    have hexp : isExpired seen now e = false := by
      unfold isExpired
      simp [hcont]
    simp [hexp]
  · simp [hc]

/-! ## C4: reconciliation is idempotent for a fixed parsed-event set -/

/-- C4: reconciliation is idempotent for a fixed parsed-event set.  If a
reconciliation pass (same feed, same clock, same bookings) completes with
ledger `evs1` and availability `avail1`, running the same pass again on
that state completes, leaves the ledger and the availability rows
identical, and removes nothing.  The hypotheses are the database's
well-formedness: ledger uids are unique per feed (a DB constraint), one
availability row per date (a DB constraint), manual rows carry no feed or
event reference (how the staff views create them), and the feed's kept
events have pairwise distinct uids (UID uniqueness of an iCal file). -/
theorem C4_reconcile_idempotent (ctx : RecCtx) (parsed : List ParsedEvent)
    (evs evs1 : List ICalEvent) (avail avail1 : List Availability) (c u rm : Nat)
    (hWF : ManualWF avail) (hndd : (avail.map fun r => r.date).Nodup)
    (hndu : (evs.map fun x => x.uid).Nodup) (hk : (keptUids ctx.today parsed).Nodup)
    (h1 : reconcile ctx parsed evs avail = .ok (evs1, avail1, c, u, rm)) :
    ∃ c2 u2, reconcile ctx parsed evs1 avail1 = .ok (evs1, avail1, c2, u2, 0) := by
  unfold reconcile at h1
  have hdec := eventLoop_decompose ctx parsed ⟨[], 0, 0, evs, avail⟩ hWF
  dsimp only at hdec
  cases hap : applyWrites ctx.fid (traceWrites ctx (fun d => hasManual avail d) parsed)
      avail with
  | none =>
    rw [hap] at hdec
    rcases hdec with ⟨er, her⟩
    rw [her] at h1
    cases h1
  | some avF =>
    rw [hap] at hdec
    rcases hdec with ⟨c1, u1, hok⟩
    rw [hok] at h1
    dsimp only at h1
    have h3 := Except.ok.inj h1
    have hA : resetPhase (seenFold ctx.today parsed [])
        ((ledgerFold ctx parsed evs).map
          (missTouch (seenFold ctx.today parsed []) ctx.now)) = evs1 :=
      congrArg Prod.fst h3
    have hB : (avF.filter fun r =>
        !((ledgerFold ctx parsed evs).any fun e =>
          isExpired (seenFold ctx.today parsed []) ctx.now e &&
            r.ical_event = some (ctx.fid, e.uid))) = avail1 :=
      congrArg (fun p => p.2.1) h3
    have hrel1 : AvailRel avail avF := applyWrites_rel _ _ _ hWF hap
    have hWFF : ManualWF avF := ManualWF_of_rel hWF hrel1.1
    have hrel2 : AvailRel avF avail1 := by
      have hmp := missingPhase_rel ctx.fid (seenFold ctx.today parsed []) ctx.now
        (ledgerFold ctx parsed evs) avF hWFF
      have hm21 : (missingPhase ctx.fid (seenFold ctx.today parsed []) ctx.now
          (ledgerFold ctx parsed evs) avF).2.1 = avail1 := hB
      rw [hm21] at hmp
      exact hmp
    have hrel : AvailRel avail avail1 := hrel1.trans hrel2
    have hWF1 : ManualWF avail1 := ManualWF_of_rel hWF hrel.1
    have hman : ∀ d, hasManual avail1 d = hasManual avail d := hasManual_congr hrel.1
    have hndF : (avF.map fun r => r.date).Nodup := applyWrites_nodup _ _ _ hap hndd
    have hnd1 : (avail1.map fun r => r.date).Nodup := by
      rw [← hB]
      exact hndF.sublist (List.Sublist.map _ (List.filter_sublist avF))
    have hnduF : ((ledgerFold ctx parsed evs).map fun x => x.uid).Nodup :=
      ledgerFold_nodup ctx parsed evs hndu
    have hndu1 : (evs1.map fun x => x.uid).Nodup := by
      have huid1 : (evs1.map fun x => x.uid) =
          (ledgerFold ctx parsed evs).map fun x => x.uid := by
        rw [← hA]
        exact passUids (seenFold ctx.today parsed []) ctx.now (ledgerFold ctx parsed evs)
      rw [huid1]
      exact hnduF
    have hwr : ∀ ev ∈ parsed, keptEv ctx.today ev = true →
        ∃ r ∈ evs1, WrittenRow ctx.now ev r := by
      intro ev hev hkept
      obtain ⟨r, hrF, hW⟩ := ledgerFold_written ctx parsed evs hk ev hev hkept
      obtain ⟨s, e, hs, he, _⟩ := keptEv_elim hkept
      obtain ⟨hWu, _, _, _, _, hWm, _, _⟩ := WrittenRow_elim hs he hW
      have hc : (seenFold ctx.today parsed []).contains r.uid = true := by
        rw [hWu]
        exact contains_of_mem (kept_uid_seen ctx.today parsed [] ev hev hkept)
      have hmt : missTouch (seenFold ctx.today parsed []) ctx.now r = r :=
        missTouch_of_contains hc
      have hrr : resetRow (seenFold ctx.today parsed []) r = r := resetRow_of_none hWm
      refine ⟨r, ?_, hW⟩
      rw [← hA, resetPhase_eq]
      have h1m : r ∈ (ledgerFold ctx parsed evs).map
          (missTouch (seenFold ctx.today parsed []) ctx.now) := by
        have hmm := List.mem_map_of_mem
          (missTouch (seenFold ctx.today parsed []) ctx.now) hrF
        rwa [hmt] at hmm
      have hmm2 := List.mem_map_of_mem (resetRow (seenFold ctx.today parsed [])) h1m
      rwa [hrr] at hmm2
    have hreplay : ledgerFold ctx parsed evs1 = evs1 :=
      ledgerFold_replay ctx parsed evs1 hndu1 hwr
    have hrows : ∀ w ∈ traceWrites ctx (fun d => hasManual avail d) parsed,
        ∃ r ∈ avail1, r.date = w.1 ∧ r.ical_feed = some ctx.fid := by
      intro w hw
      obtain ⟨v, hlw⟩ := Option.isSome_iff_exists.mp (lastWrite_isSome_of_mem hw)
      obtain ⟨r, hrF, hrd, hrf, hfix⟩ := applyWrites_last _ avail avF hap w.1 v hlw
      obtain ⟨ev, hev, hkept, hv2⟩ := traceWrites_key (lastWrite_pair_mem hlw)
      have hv : v = evDefaults ctx ev := hv2
      have hie : r.ical_event = some v.ical_event := by
        conv_lhs => rw [← hfix]
        rfl
      have hie2 : r.ical_event = some (ctx.fid, evUid ev) := by
        rw [hie, hv]
        rfl
      have hseen : evUid ev ∈ seenFold ctx.today parsed [] :=
        kept_uid_seen ctx.today parsed [] ev hev hkept
      refine ⟨r, ?_, hrd, hrf⟩
      rw [← hB]
      exact List.mem_filter.mpr ⟨hrF, avail_filter_keep hie2 hseen⟩
    have hlast : ∀ (d : Nat) (v : AvailDefaults),
        lastWrite (traceWrites ctx (fun d => hasManual avail d) parsed) d = some v →
        ∀ r ∈ avail1, r.date = d → availWrite v r = r := by
      intro d v hlw r' hr1 hrd'
      obtain ⟨r, hrF, hrd, _, hfix⟩ := applyWrites_last _ avail avF hap d v hlw
      have hr'F : r' ∈ avF := by
        rw [← hB] at hr1
        exact List.mem_of_mem_filter hr1
      have hrr : r' = r :=
        List.inj_on_of_nodup_map hndF hr'F hrF (by rw [hrd', hrd])
      rw [hrr]
      exact hfix
    have hfix2 : applyWrites ctx.fid
        (traceWrites ctx (fun d => hasManual avail d) parsed) avail1 = some avail1 :=
      applyWrites_fix _ avail1 hnd1 hrows hlast
    have hdec2 := eventLoop_decompose ctx parsed ⟨[], 0, 0, evs1, avail1⟩ hWF1
    dsimp only at hdec2
    rw [traceWrites_congr ctx (fun d => hman d) parsed, hfix2] at hdec2
    rcases hdec2 with ⟨c2, u2, hok2⟩
    refine ⟨c2, u2, ?_⟩
    unfold reconcile
    rw [hok2]
    dsimp only
    rw [hreplay]
    have hmt1 : evs1.map (missTouch (seenFold ctx.today parsed []) ctx.now) = evs1 := by
      conv_lhs => rw [← hA]
      rw [missMap_stable (seenFold ctx.today parsed []) ctx.now
        (ledgerFold ctx parsed evs), hA]
    have hexp : ∀ x ∈ evs1, isExpired (seenFold ctx.today parsed []) ctx.now x = false := by
      rw [← hA]
      exact expired_stable (seenFold ctx.today parsed []) ctx.now (ledgerFold ctx parsed evs)
    rw [missingPhase_noop ctx.fid (seenFold ctx.today parsed []) ctx.now evs1 avail1
      hmt1 hexp]
    dsimp only
    have hreset : resetPhase (seenFold ctx.today parsed []) evs1 = evs1 := by
      conv_lhs => rw [← hA]
      rw [reset_stable (seenFold ctx.today parsed []) ctx.now (ledgerFold ctx parsed evs),
        hA]
    rw [hreset]

theorem except_ok_of_toOption {ε α : Type} {r : Except ε α} {x : α}
    (h : r.toOption = some x) : r = .ok x := by
  cases r with
  | ok a =>
    have ha : a = x := Option.some.inj h
    rw [ha]
  | error e => cases h

/-- The ledger row of the C4 witness's single event. -/
def c4Row : ICalEvent :=
  { uid := "u", dtstart := 10, dtend := 12, summary := "S", status := "CONFIRMED",
    first_seen_at := 100, last_seen_at := 100, missing_since := none, is_deleted := false }

/-- The imported block row of the C4 witness at one date. -/
def c4B (d : Nat) : Availability :=
  { date := d, is_available := false, note := "F: S", source := "ICAL",
    external_uid := "u", ical_feed := some 1, ical_event := some (1, "u") }

set_option maxRecDepth 100000 in
/-- Witness for C4 at a concrete input: an empty initial state and one
future event; the second reconciliation returns exactly the state of the
first and removes nothing. -/
theorem C4_reconcile_idempotent_witness :
    ∃ c2 u2, reconcile ⟨1, "F", 10, 100, []⟩
      [{ start := some 10, stop := some 12, uid := some "u", summary := some "S" }]
      [c4Row] [c4B 10, c4B 11] = .ok ([c4Row], [c4B 10, c4B 11], c2, u2, 0) :=
  C4_reconcile_idempotent ⟨1, "F", 10, 100, []⟩
    [{ start := some 10, stop := some 12, uid := some "u", summary := some "S" }]
    [] [c4Row] [] [c4B 10, c4B 11] 1 0 0
    (by intro r hr hm; cases hr) (by simp) (by simp) (by decide)
    (except_ok_of_toOption (by decide))

end ApartBook
